import Mathlib

/-!
# Verification of the SaneSnippet converter (`sane_snippets.py`)

A shallow embedding of the snippet converter: the delimiter/regex parser
(`template`, `line_template`, `parse_snippet`), the XML serializer
(`snippet_to_xml` plus `ElementTree.write`), and the filesystem
synchronization pass (`regenerate_snippets`, `swap_extension`).

Strings are modelled as `List Char`.  The two regular expressions of the
source are embedded by their exact backtracking semantics (leftmost match,
lazy `.*?`, alternation order `\r\n`, `\r`, `\n`).  The filesystem is an
association list from paths to file contents; a synchronization pass is a
fold over a fixed listing of paths, recording write and delete events.
-/

set_option maxRecDepth 100000

namespace SaneSnippets

/-! ## Python character classes -/

/-- Python whitespace (the set accepted by `str.strip()`, `str.isspace()` and
the regex class `\s` on text patterns), by code point. -/
def isPySpace (c : Char) : Bool :=
  let n := c.toNat
  n = 0x20 || n = 0x09 || n = 0x0a || n = 0x0b || n = 0x0c || n = 0x0d ||
  n = 0x1c || n = 0x1d || n = 0x1e || n = 0x1f || n = 0x85 || n = 0xa0 ||
  n = 0x1680 || (0x2000 ≤ n && n ≤ 0x200a) ||
  n = 0x2028 || n = 0x2029 || n = 0x202f || n = 0x205f || n = 0x3000

/-- The line boundaries recognized by Python `str.splitlines`. -/
def isBreakChar (c : Char) : Bool :=
  let n := c.toNat
  n = 0x0a || n = 0x0b || n = 0x0c || n = 0x0d ||
  n = 0x1c || n = 0x1d || n = 0x1e || n = 0x85 || n = 0x2028 || n = 0x2029

/-- Python `str.strip()` with no arguments: drop leading and trailing
whitespace. -/
def pyStrip (s : List Char) : List Char :=
  ((s.dropWhile isPySpace).reverse.dropWhile isPySpace).reverse

/-- Worker for `pySplitlines`: accumulates the current line (reversed); a
`\r` immediately followed by `\n` is consumed as a single boundary. -/
def splitlinesAux : List Char → List Char → List (List Char)
  | [], acc => if acc = [] then [] else [acc.reverse]
  | '\r' :: '\n' :: t, acc => acc.reverse :: splitlinesAux t []
  | c :: t, acc =>
    if isBreakChar c then acc.reverse :: splitlinesAux t []
    else splitlinesAux t (c :: acc)

/-- Python `str.splitlines()`: split at line boundaries, treating `\r\n` as a
single boundary and not adding an empty final line for a trailing boundary. -/
def pySplitlines (s : List Char) : List (List Char) :=
  splitlinesAux s []

/-! ## The header line regex `line_template` -/

/-- Split a string at its first `':'`; `none` when it has no colon. -/
def splitAtFirstColon : List Char → Option (List Char × List Char)
  | [] => none
  | c :: t =>
    if c = ':' then some ([], t)
    else (splitAtFirstColon t).map (fun r => (c :: r.1, r.2))

/-- The regex `^(?P<key>.*?):\s*(?P<val>.*)$` applied to one line.
The lazy key group reaches to the first colon, `\s*` greedily consumes
whitespace after it and `val` is the remainder.  (`parse_snippet` only ever
applies it to the output of `splitlines`, which contains no line-break
characters, so the newline-related subtleties of `.` and `$` do not arise.) -/
def lineMatch (l : List Char) : Option (List Char × List Char) :=
  (splitAtFirstColon l).map (fun r => (r.1, r.2.dropWhile isPySpace))

/-! ## The document regex `template` -/

/-- Boolean prefix test (`str.startswith`, and literal matching inside the
regexes). -/
def isPre : List Char → List Char → Bool
  | [], _ => true
  | _ :: _, [] => false
  | a :: as, b :: bs => if a = b then isPre as bs else false

/-- Boolean suffix test (`str.endswith`). -/
def isSuf (p s : List Char) : Bool :=
  isPre p.reverse s.reverse

/-- The literal `---`. -/
def dashes : List Char := ['-', '-', '-']
/-- The newline alternative `\r\n`. -/
def crlf : List Char := ['\r', '\n']
/-- The newline alternative `\r` (`\r\n?` with the optional part absent). -/
def crOnly : List Char := ['\r']
/-- The newline alternative `\n`. -/
def lfOnly : List Char := ['\n']

/-- After a candidate line separator: match the literal `---` followed by a
newline (`\r\n`, `\r` or `\n`, in the engine's preference order), returning
the remaining text, which the group `content` (`.*` under `re.S`) takes
whole. -/
def tryDelim (s : List Char) : Option (List Char) :=
  if isPre dashes s then
    if isPre crlf (s.drop 3) then some ((s.drop 3).drop 2)
    else if isPre crOnly (s.drop 3) then some ((s.drop 3).drop 1)
    else if isPre lfOnly (s.drop 3) then some ((s.drop 3).drop 1)
    else none
  else none

/-- At a fixed position, try the `linesep` alternatives `\r\n`, `\r`, `\n`
(the order the engine tries them), each followed by the full closing
delimiter.  Returns the captured `linesep` and `content` groups. -/
def splitHere (s : List Char) : Option (List Char × List Char) :=
  match (if isPre crlf s then tryDelim (s.drop 2) else none) with
  | some c => some (crlf, c)
  | none =>
    match (if isPre crOnly s then tryDelim (s.drop 1) else none) with
    | some c => some (crOnly, c)
    | none =>
      match (if isPre lfOnly s then tryDelim (s.drop 1) else none) with
      | some c => some (lfOnly, c)
      | none => none

/-- The lazy group `(?P<header>.*?)`: the engine grows the header one
character at a time, looking for the leftmost position where
`linesep --- newline` matches.  Returns `(header, linesep, content)`. -/
def findSplit : List Char → Option (List Char × List Char × List Char)
  | [] => none
  | c :: t =>
    match splitHere (c :: t) with
    | some r => some ([], r.1, r.2)
    | none => (findSplit t).map (fun r => (c :: r.1, r.2.1, r.2.2))

/-- `template.match(text)`: `---`, a newline (`\r\n`, `\r` or `\n`, with
backtracking into the rest of the pattern), the lazy header, the captured
`linesep`, `---`, a newline, and `content` to the end of the string. -/
def matchTemplate (s : List Char) : Option (List Char × List Char × List Char) :=
  if isPre dashes s then
    match (if isPre crlf (s.drop 3) then findSplit ((s.drop 3).drop 2) else none) with
    | some r => some r
    | none =>
      match (if isPre crOnly (s.drop 3) then findSplit ((s.drop 3).drop 1) else none) with
      | some r => some r
      | none => if isPre lfOnly (s.drop 3) then findSplit ((s.drop 3).drop 1) else none
  else none

/-! ## `parse_snippet` -/

/-- The three distinct `SyntaxError`s of `parse_snippet`:
`"Unable to parse SaneSnippet"` (the document does not match `template`),
`"Unable to parse SaneSnippet header"` (a header line does not match
`line_template`), and `'Unexpected SaneSnippet property: "<k>"'`. -/
inductive SnipErr where
  | malformed
  | headerLine
  | unknownKey (k : List Char)
deriving DecidableEq

/-- The snippet dict built by `parse_snippet`. -/
structure Snippet where
  path : List Char
  name : List Char
  description : List Char
  tabTrigger : List Char
  scope : List Char
  linesep : List Char
  content : List Char
deriving DecidableEq

/-- The result of `parse_snippet`: either a `SyntaxError` or the snippet
dict. -/
inductive PResult where
  | err (e : SnipErr)
  | ok (s : Snippet)
deriving DecidableEq

/-- `os.linesep` (the embedding fixes the POSIX value; `parse_snippet` only
uses it as a default that a successful `template` match always overwrites). -/
def osLinesep : List Char := "\n".toList

def descKey : List Char := "description".toList
def tabKey : List Char := "tabTrigger".toList
def scopeKey : List Char := "scope".toList

/-- `parse_val`: strips the value (the quoted-string handling is a TODO in
the source). -/
def parse_val (t : List Char) : List Char := pyStrip t

/-- `snippet[key] = value` for the three recognized keys. -/
def setSnippetKey (s : Snippet) (k v : List Char) : Snippet :=
  if k = descKey then { s with description := v }
  else if k = tabKey then { s with tabTrigger := v }
  else { s with scope := v }

/-- The `for line in m['header'].splitlines()` loop of `parse_snippet`. -/
def parseHeaderLines : List (List Char) → Snippet → PResult
  | [], s => .ok s
  | l :: rest, s =>
    match lineMatch l with
    | none => .err .headerLine
    | some kv =>
      if pyStrip kv.1 = descKey ∨ pyStrip kv.1 = tabKey ∨ pyStrip kv.1 = scopeKey then
        parseHeaderLines rest (setSnippetKey s (pyStrip kv.1) (parse_val kv.2))
      else .err (.unknownKey (pyStrip kv.1))

/-- `parse_snippet(path, name, text)`. -/
def parse_snippet (path name text : List Char) : PResult :=
  let s0 : Snippet :=
    { path := path, name := name, description := name, tabTrigger := [],
      scope := [], linesep := osLinesep, content := [] }
  match matchTemplate text with
  | none => .err .malformed
  | some r =>
    parseHeaderLines (pySplitlines r.1)
      { s0 with linesep := r.2.1, content := r.2.2 }

/-! ## XML serialization (`snippet_to_xml` and `ElementTree.write`) -/

/-- A child element of the snippet root: a tag with a text node and no
children (all four children produced by `snippet_to_xml` have this shape). -/
structure XNode where
  tag : List Char
  text : List Char
deriving DecidableEq

/-- The root element built by `snippet_to_xml`: a tag (always `snippet`),
no text, and a list of child elements. -/
structure XRoot where
  tag : List Char
  children : List XNode
deriving DecidableEq

/-- `xml_append_node(s, tag, text)`. -/
def xml_append_node (s : XRoot) (tag text : List Char) : XRoot :=
  { s with children := s.children ++ [⟨tag, text⟩] }

/-- `snippet_to_xml(snippet)`: the `description`, `tabTrigger`, `scope`
children appended in a loop, then the `content` element appended directly. -/
def snippet_to_xml (sn : Snippet) : XRoot :=
  let s : XRoot := ⟨"snippet".toList, []⟩
  let s := xml_append_node s "description".toList sn.description
  let s := xml_append_node s "tabTrigger".toList sn.tabTrigger
  let s := xml_append_node s "scope".toList sn.scope
  { s with children := s.children ++ [⟨"content".toList, sn.content⟩] }

/-- `ElementTree._escape_cdata`: text nodes escape exactly `&`, `<`, `>`. -/
def escapeCdata : List Char → List Char
  | [] => []
  | c :: t =>
    (if c = '&' then "&amp;".toList
     else if c = '<' then "&lt;".toList
     else if c = '>' then "&gt;".toList
     else [c]) ++ escapeCdata t

/-- The `us-ascii` output encoding of `ElementTree.write` with
`errors="xmlcharrefreplace"`: non-ASCII characters become decimal character
references. -/
def charRefEncode : List Char → List Char
  | [] => []
  | c :: t =>
    (if c.toNat ≥ 128 then
      "&#".toList ++ (Nat.toDigits 10 c.toNat) ++ ";".toList
     else [c]) ++ charRefEncode t

/-- Serialize one child element the way `ElementTree` writes an element with
text and no children: `<tag />` when the text is empty (falsy), otherwise
`<tag>escaped text</tag>`. -/
def writeNode (n : XNode) : List Char :=
  if n.text = [] then
    "<".toList ++ n.tag ++ " />".toList
  else
    "<".toList ++ n.tag ++ ">".toList ++
      charRefEncode (escapeCdata n.text) ++
      "</".toList ++ n.tag ++ ">".toList

/-- Serialize the root element (no text, no attributes): short form when it
has no children, otherwise the children in order.  With the default
(`us-ascii`) encoding `ElementTree.write` emits no XML declaration, so this
is the whole generated file. -/
def writeXml (r : XRoot) : List Char :=
  if r.children = [] then "<".toList ++ r.tag ++ " />".toList
  else
    "<".toList ++ r.tag ++ ">".toList ++
      (r.children.map writeNode).flatten ++
      "</".toList ++ r.tag ++ ">".toList

/-- The generated XML string for a parsed snippet
(`etree.ElementTree(snippet_to_xml(snippet)).write(sio)` then decode). -/
def serializeSnippet (sn : Snippet) : List Char :=
  writeXml (snippet_to_xml sn)

/-! ## Path manipulation (`swap_extension`, `os.path`) -/

def EXT_SANESNIPPET : List Char := ".sane-snippet".toList
def EXT_SNIPPET_SANE : List Char := ".sane.sublime-snippet".toList

/-- Worker for `replaceAll` with explicit fuel (the fuel is always at least
the length of the string, so it never runs out). -/
def replaceAllAux (pat rep : List Char) : Nat → List Char → List Char
  | 0, s => s
  | _ + 1, [] => []
  | fuel + 1, c :: t =>
    if pat ≠ [] ∧ isPre pat (c :: t) then
      rep ++ replaceAllAux pat rep fuel ((c :: t).drop pat.length)
    else c :: replaceAllAux pat rep fuel t

/-- Python `str.replace(pat, rep)`: replace every occurrence, scanning left
to right without overlap. -/
def replaceAll (s pat rep : List Char) : List Char :=
  replaceAllAux pat rep s.length s

/-- `swap_extension(path)`. -/
def swap_extension (p : List Char) : List Char :=
  if isSuf EXT_SNIPPET_SANE p then replaceAll p EXT_SNIPPET_SANE EXT_SANESNIPPET
  else replaceAll p EXT_SANESNIPPET EXT_SNIPPET_SANE

/-- `os.path.basename` (POSIX): the part after the last `/`. -/
def basenameOf (p : List Char) : List Char :=
  (p.reverse.takeWhile (fun c => decide (c ≠ '/'))).reverse

/-- The root of `os.path.splitext(b)` for a basename: cut at the last dot,
unless every character before that dot is itself a dot. -/
def splitextName (b : List Char) : List Char :=
  let extLen := (b.reverse.takeWhile (fun c => decide (c ≠ '.'))).length
  if extLen = b.length then b
  else
    let i := b.length - extLen - 1
    if (b.take i).all (fun c => decide (c = '.')) then b else b.take i

/-! ## The synchronization pass (`regenerate_snippets`) -/

/-- The filesystem: an association list from paths to file contents. -/
abbrev FS := List (List Char × List Char)

def fsLookup : FS → List Char → Option (List Char)
  | [], _ => none
  | e :: t, p => if e.1 = p then some e.2 else fsLookup t p

def fsExists (fs : FS) (p : List Char) : Bool :=
  (fsLookup fs p).isSome

/-- `open(path, 'w')` followed by a full write: replace the content when the
path exists, otherwise append a fresh file. -/
def fsWrite (fs : FS) (p c : List Char) : FS :=
  if fsExists fs p then fs.map (fun e => if e.1 = p then (p, c) else e)
  else fs ++ [(p, c)]

/-- `os.remove(path)`. -/
def fsRemove (fs : FS) (p : List Char) : FS :=
  fs.filter (fun e => decide (e.1 ≠ p))

/-- The file is named like a source snippet (`basename.endswith(EXT_SANESNIPPET)`). -/
def srcNamed (p : List Char) : Bool := isSuf EXT_SANESNIPPET (basenameOf p)

/-- The file is named like a generated snippet
(`basename.endswith(EXT_SNIPPET_SANE)`). -/
def genNamed (p : List Char) : Bool := isSuf EXT_SNIPPET_SANE (basenameOf p)

/-- The observable filesystem mutations of a pass. -/
inductive Event where
  | wrote (p : List Char)
  | deleted (p : List Char)
deriving DecidableEq

/-- `regenerate_snippet(path)`: read the source file, parse it (the name is
the basename with its extension stripped) and serialize; `None` on a read or
parse failure. -/
def regenerate_snippet (fs : FS) (p : List Char) : Option (List Char) :=
  match fsLookup fs p with
  | none => none
  | some text =>
    match parse_snippet p (splitextName (basenameOf p)) text with
    | .err _ => none
    | .ok sn => some (serializeSnippet sn)

/-- The body of the `regenerate_snippets` walk for one directory entry:
delete orphaned generated snippets, regenerate sources, write only when
forced, missing, or different. -/
def processFile (force : Bool) (fs : FS) (p : List Char) : FS × List Event :=
  if genNamed p then
    if fsExists fs (swap_extension p) then (fs, [])
    else (fsRemove fs p, [Event.deleted p])
  else if srcNamed p then
    match regenerate_snippet fs p with
    | none => (fs, [])
    | some generated =>
      if force || !fsExists fs (swap_extension p) then
        (fsWrite fs (swap_extension p) generated, [Event.wrote (swap_extension p)])
      else
        match fsLookup fs (swap_extension p) with
        | none => (fs, [])
        | some read =>
          if read = generated then (fs, [])
          else (fsWrite fs (swap_extension p) generated,
                [Event.wrote (swap_extension p)])
  else (fs, [])

/-- `regenerate_snippets(root, force)`: process every file of the walk
listing in order, threading the filesystem and collecting events. -/
def regenerate_snippets (force : Bool) : List (List Char) → FS → FS × List Event
  | [], fs => (fs, [])
  | p :: rest, fs =>
    let r := processFile force fs p
    let r2 := regenerate_snippets force rest r.1
    (r2.1, r.2 ++ r2.2)

/-- The paths of a filesystem (the walk listing of an unchanged tree). -/
def fsPaths (fs : FS) : List (List Char) :=
  fs.map (fun e => e.1)

/-! ## The specification grammar of §4.1 (spec side, for refinement)

These definitions follow the wording of the spec, not the code:
`document := "---" NEWLINE header "---" NEWLINE content`,
`header := (headerLine NEWLINE)*`, `headerLine := key ":" WS* value`,
with NEWLINE either `\n` or `\r\n` (the two the spec requires). -/

/-- A NEWLINE of the spec grammar. -/
def specNL (nl : List Char) : Prop :=
  nl = lfOnly ∨ nl = crlf

/-- A `headerLine` of the spec grammar: a single line (no line-break
characters) containing the `":"` that separates key from value. -/
def specHeaderLine (l : List Char) : Prop :=
  (∀ c ∈ l, isBreakChar c = false) ∧ ':' ∈ l

/-- The header block: each header line followed by its newline. -/
def hbBlock (ps : List (List Char × List Char)) : List Char :=
  (ps.map (fun p => p.1 ++ p.2)).flatten

/-- The text the `header` group captures for this block: all lines and
separators except the final newline. -/
def hbHeader : List (List Char × List Char) → List Char
  | [] => []
  | [p] => p.1
  | p :: rest => p.1 ++ p.2 ++ hbHeader rest

/-- The final newline of the block (captured as `linesep`). -/
def hbLastNL : List (List Char × List Char) → List Char
  | [] => []
  | [p] => p.2
  | _ :: rest => hbLastNL rest

/-- A document of the §4.1 grammar, as worded in the spec. -/
def specDocMatch (text : List Char) : Prop :=
  ∃ (nl0 nl1 : List Char) (ps : List (List Char × List Char)) (c : List Char),
    specNL nl0 ∧ specNL nl1 ∧
    (∀ p ∈ ps, specHeaderLine p.1 ∧ specNL p.2) ∧
    text = dashes ++ nl0 ++ hbBlock ps ++ dashes ++ nl1 ++ c

/-- The trimmed key of the line, split (as the code does) at the first
colon; `none` when the line has no colon. -/
def lineKeyOf (l : List Char) : Option (List Char) :=
  (splitAtFirstColon l).map (fun r => pyStrip r.1)

/-- The value `parse_snippet` would record for `key` from this header line
list: the last occurrence wins. -/
def lastValue : List (List Char) → List Char → Option (List Char)
  | [], _ => none
  | l :: rest, k =>
    match lastValue rest k with
    | some v => some v
    | none =>
      match lineMatch l with
      | some kv => if pyStrip kv.1 = k then some (parse_val kv.2) else none
      | none => none

/-! ## Predicates about the synchronization pass -/

/-- The path is in sync: a generated file has its source present, and a
source file that regenerates has a generated file with exactly the
regenerated content. -/
def GoodAt (fs : FS) (q : List Char) : Prop :=
  (genNamed q = true → fsExists fs (swap_extension q) = true) ∧
  (srcNamed q = true → ∀ g, regenerate_snippet fs q = some g →
    fsLookup fs (swap_extension q) = some g)

/-- The path's extension swapping is well behaved: swapping a source name
yields a generated name and swapping back returns it, and swapping a
generated name yields a source name. -/
def PathOK (p : List Char) : Prop :=
  (srcNamed p = true →
    genNamed (swap_extension p) = true ∧ swap_extension (swap_extension p) = p) ∧
  (genNamed p = true → srcNamed (swap_extension p) = true)

/-- The well-behaved-tree proviso: no duplicate paths, every path swaps
extensions cleanly, and distinct source files have distinct generated
files. -/
def TreeOK (fs : FS) : Prop :=
  (fsPaths fs).Nodup ∧
  (∀ p ∈ fsPaths fs, PathOK p) ∧
  (∀ p q, p ∈ fsPaths fs → q ∈ fsPaths fs → srcNamed p = true → srcNamed q = true →
    swap_extension p = swap_extension q → p = q)

/-- Invariant carried through a synchronization pass: extension facts hold
for every present or still-listed path, source pairing is injective,
the remaining listing has no duplicates and lists only present files, and
every present file that the pass has already finished with is in sync. -/
def StepHyp (fs : FS) (todo : List (List Char)) : Prop :=
  (∀ p, p ∈ fsPaths fs ∨ p ∈ todo → PathOK p) ∧
  (∀ p q, (p ∈ fsPaths fs ∨ p ∈ todo) → (q ∈ fsPaths fs ∨ q ∈ todo) →
    srcNamed p = true → srcNamed q = true → swap_extension p = swap_extension q → p = q) ∧
  todo.Nodup ∧
  (∀ q ∈ todo, q ∈ fsPaths fs) ∧
  (∀ q ∈ fsPaths fs, q ∉ todo → GoodAt fs q)

/-- The pattern occurs in `s1 ++ pat` only as the trailing occurrence: at no
position inside `s1` does `pat` match. -/
def noOccWithin : List Char → List Char → Bool
  | [], _ => true
  | c :: t, pat => !isPre pat ((c :: t) ++ pat) && noOccWithin t pat

/-! ## Concrete documents and trees used by individual claims -/

/-- The Hello-World example document of the spec (§8). -/
def helloDoc : List Char :=
  "---\ndescription: Hello World\ntabTrigger: hello\nscope: source.python\n---\nprint(\"Hello, $1\")".toList

/-- A document whose header block ends with one empty line just before the
closing delimiter. -/
def blankBeforeCloseDoc : List Char := "---\ndescription: X\n\n---\nc".toList

/-- A document with an empty line between two recognized header lines. -/
def blankBetweenDoc : List Char := "---\ndescription: X\n\ntabTrigger: y\n---\nc".toList

/-- A document that repeats the `description` key. -/
def dupKeyDoc : List Char := "---\ndescription: a\ndescription: b\n---\nc".toList

/-- A grammar-valid document with zero header lines and LF newlines. -/
def zeroHeaderDoc : List Char := "---\n---\nc".toList

/-- A document whose content contains a further `---` line. -/
def dashesContentDoc : List Char := "---\ndescription: a\n---\nx\n---\ny".toList

/-- A tree containing two distinct source files whose generated paths
collide: `str.replace` replaces every occurrence of the extension, so both
map to `d/a.sane.sublime-snippet.sane.sublime-snippet`. -/
def aliasFS : FS :=
  [("d/a.sane-snippet.sane-snippet".toList, "---\ndescription: A\n---\nx".toList),
   ("d/a.sane.sublime-snippet.sane-snippet".toList, "---\ndescription: B\n---\nx".toList)]

/-- The tree after one synchronization pass over `aliasFS`. -/
def aliasFS1 : FS := (regenerate_snippets false (fsPaths aliasFS) aliasFS).1

/-- A generated file whose claim-paired source (same directory, same base
name, source extension) is present, but whose `swap_extension` image is a
different, absent path. -/
def orphanG : List Char := "d/x.sane.sublime-snippet".toList ++ EXT_SNIPPET_SANE

/-- The paired source file of `orphanG` in the sense of the spec: same
directory and base name, with the source extension. -/
def orphanS : List Char := "d/x.sane.sublime-snippet".toList ++ EXT_SANESNIPPET

/-- The tree holding `orphanG` and its spec-paired source. -/
def orphanFS : FS :=
  [(orphanG, "<snippet />".toList),
   (orphanS, "---\ndescription: A\n---\nx".toList)]

/-- A header-line list repeating the `description` key. -/
def c3lines : List (List Char) := ["description: a".toList, "description: b".toList]

/-- The starting snippet dict of `parse_snippet` for path `p`, name `n`. -/
def baseSnip : Snippet :=
  { path := "p".toList, name := "n".toList, description := "n".toList,
    tabTrigger := [], scope := [], linesep := osLinesep, content := [] }

/-- A healthy source/generated pair used as a witness for the orphan-cleanup
theorem. -/
def pairFS : FS :=
  [("d/x.sane.sublime-snippet".toList, "<snippet />".toList),
   ("d/x.sane-snippet".toList, "---\ndescription: A\n---\nx".toList)]

/-- A healthy one-source tree used as a witness for the synchronization
theorems. -/
def simpleFS : FS :=
  [("d/x.sane-snippet".toList, "---\ndescription: A\n---\nbody".toList)]


/-! # Theorems -/

/-! ## Basic facts about `isPre` and `isSuf` -/

theorem isPre_append (p t : List Char) : isPre p (p ++ t) = true := by
  induction p with
  | nil => rfl
  | cons a as ih => simp [isPre, ih]

theorem isPre_iff {p s : List Char} : isPre p s = true ↔ ∃ t, s = p ++ t := by
  induction p generalizing s with
  | nil => simp [isPre]
  | cons a as ih =>
    cases s with
    | nil => simp [isPre]
    | cons b bs =>
      by_cases h : a = b
      · subst h
        rw [show isPre (a :: as) (a :: bs) = isPre as bs from by simp [isPre], ih]
        constructor
        · rintro ⟨t, rfl⟩; exact ⟨t, rfl⟩
        · rintro ⟨t, ht⟩
          refine ⟨t, ?_⟩
          injection ht
      · constructor
        · intro hf
          rw [show isPre (a :: as) (b :: bs) = false from by simp [isPre, h]] at hf
          exact Bool.noConfusion hf
        · rintro ⟨t, ht⟩
          injection ht with h1 _
          exact absurd h1.symm h

theorem isSuf_iff {p s : List Char} : isSuf p s = true ↔ ∃ t, s = t ++ p := by
  unfold isSuf
  rw [isPre_iff]
  constructor
  · rintro ⟨t, ht⟩
    refine ⟨t.reverse, ?_⟩
    have := congrArg List.reverse ht
    simpa using this
  · rintro ⟨t, rfl⟩
    exact ⟨t.reverse, by simp⟩

theorem isSuf_append (t p : List Char) : isSuf p (t ++ p) = true :=
  isSuf_iff.mpr ⟨t, rfl⟩

/-- Two suffixes of the same string are nested: the shorter is a suffix of
the longer. -/
theorem isSuf_trans_of_le {A B s : List Char} (hA : isSuf A s = true)
    (hB : isSuf B s = true) (hlen : B.length ≤ A.length) : isSuf B A = true := by
  obtain ⟨t, rfl⟩ := isSuf_iff.mp hA
  obtain ⟨u, hu⟩ := isSuf_iff.mp hB
  have hlt : t.length ≤ u.length := by
    have := congrArg List.length hu
    simp at this
    omega
  have hpre : t <+: u := by
    have h1 : t <+: t ++ A := ⟨A, rfl⟩
    have h2 : u <+: t ++ A := ⟨B, hu.symm⟩
    exact List.prefix_of_prefix_length_le h1 h2 hlt
  obtain ⟨u2, rfl⟩ := hpre
  rw [List.append_assoc] at hu
  have := List.append_cancel_left hu
  exact isSuf_iff.mpr ⟨u2, this⟩

/-- A path cannot end in both extensions. -/
theorem ext_clash {b : List Char} (h1 : isSuf EXT_SNIPPET_SANE b = true)
    (h2 : isSuf EXT_SANESNIPPET b = true) : False := by
  have hlen : EXT_SANESNIPPET.length ≤ EXT_SNIPPET_SANE.length := by decide
  have := isSuf_trans_of_le h1 h2 hlen
  exact absurd this (by decide)

theorem srcNamed_genNamed_clash {p : List Char} (h1 : srcNamed p = true)
    (h2 : genNamed p = true) : False :=
  ext_clash h2 h1

/-! ## Basic facts about `pyStrip`, `splitAtFirstColon`, `splitlines` -/

theorem dropWhile_idem (p : Char → Bool) (l : List Char) :
    (l.dropWhile p).dropWhile p = l.dropWhile p := by
  induction l with
  | nil => rfl
  | cons a t ih =>
    by_cases h : p a
    · simp [List.dropWhile_cons, h, ih]
    · simp [List.dropWhile_cons, h]

theorem pyStrip_dropWhile (l : List Char) :
    pyStrip (l.dropWhile isPySpace) = pyStrip l := by
  unfold pyStrip
  rw [dropWhile_idem]

theorem splitAtFirstColon_of_not_mem {l : List Char} (h : ':' ∉ l) :
    splitAtFirstColon l = none := by
  induction l with
  | nil => rfl
  | cons a t ih =>
    have ha : a ≠ ':' := fun hh => h (hh ▸ List.mem_cons_self a t)
    have ht : ':' ∉ t := fun hh => h (List.mem_cons_of_mem a hh)
    simp [splitAtFirstColon, ha, ih ht]

theorem splitAtFirstColon_append {pre : List Char} (post : List Char)
    (h : ':' ∉ pre) : splitAtFirstColon (pre ++ ':' :: post) = some (pre, post) := by
  induction pre with
  | nil => simp [splitAtFirstColon]
  | cons a t ih =>
    have ha : a ≠ ':' := fun hh => h (hh ▸ List.mem_cons_self a t)
    have ht : ':' ∉ t := fun hh => h (List.mem_cons_of_mem a hh)
    simp [splitAtFirstColon, ha, ih ht]

theorem break_eq_false_ne {c : Char} (h : isBreakChar c = false) :
    c ≠ '\r' ∧ c ≠ '\n' := by
  constructor
  · rintro rfl; exact absurd h (by decide)
  · rintro rfl; exact absurd h (by decide)

/-- Non-boundary characters are accumulated into the current line. -/
theorem splitlinesAux_nonbreak {c : Char} (t acc : List Char)
    (h : isBreakChar c = false) :
    splitlinesAux (c :: t) acc = splitlinesAux t (c :: acc) := by
  have h1 : c ≠ '\r' := (break_eq_false_ne h).1
  rw [splitlinesAux.eq_def]
  split <;> simp_all

theorem splitlinesAux_line {L : List Char} (X acc : List Char)
    (hL : ∀ c ∈ L, isBreakChar c = false) :
    splitlinesAux (L ++ X) acc = splitlinesAux X (L.reverse ++ acc) := by
  induction L generalizing acc with
  | nil => simp
  | cons a t ih =>
    have ha := hL a (List.mem_cons_self a t)
    have ht : ∀ c ∈ t, isBreakChar c = false := fun c hc => hL c (List.mem_cons_of_mem a hc)
    rw [List.cons_append, splitlinesAux_nonbreak _ _ ha, ih _ ht]
    simp

/-- An `\n` boundary ends the current line. -/
theorem splitlinesAux_lf (t acc : List Char) :
    splitlinesAux ('\n' :: t) acc = acc.reverse :: splitlinesAux t [] := rfl

/-- An `\r\n` boundary is consumed as one. -/
theorem splitlinesAux_crlf (t acc : List Char) :
    splitlinesAux ('\r' :: '\n' :: t) acc = acc.reverse :: splitlinesAux t [] := rfl

theorem splitlinesAux_nil (acc : List Char) :
    splitlinesAux [] acc = if acc = [] then [] else [acc.reverse] := rfl

/-- A single boundary-free line splits into itself. -/
theorem pySplitlines_single {L : List Char} (hne : L ≠ [])
    (hL : ∀ c ∈ L, isBreakChar c = false) : pySplitlines L = [L] := by
  unfold pySplitlines
  have := splitlinesAux_line ([] : List Char) [] hL
  rw [List.append_nil] at this
  rw [this, splitlinesAux_nil]
  simp [hne]


/-! ## Scanning behavior of the `template` embedding -/

/-- No `linesep` candidate matches at a position holding an ordinary
character. -/
theorem splitHere_nonbreak {c : Char} (t : List Char) (h1 : c ≠ '\r')
    (h2 : c ≠ '\n') : splitHere (c :: t) = none := by
  have e1 : isPre crlf (c :: t) = false := by simp [crlf, isPre, Ne.symm h1]
  have e2 : isPre crOnly (c :: t) = false := by simp [crOnly, isPre, Ne.symm h1]
  have e3 : isPre lfOnly (c :: t) = false := by simp [lfOnly, isPre, Ne.symm h2]
  simp [splitHere, e1, e2, e3]

theorem findSplit_cons_nonbreak {c : Char} (t : List Char) (h1 : c ≠ '\r')
    (h2 : c ≠ '\n') :
    findSplit (c :: t) =
      (findSplit t).map (fun r => (c :: r.1, r.2.1, r.2.2)) := by
  simp [findSplit, splitHere_nonbreak t h1 h2]

/-- The lazy header group grows through a whole line free of `\r` and
`\n`. -/
theorem findSplit_line {L : List Char} (rest : List Char)
    (hL : ∀ c ∈ L, c ≠ '\r' ∧ c ≠ '\n') :
    findSplit (L ++ rest) =
      (findSplit rest).map (fun r => (L ++ r.1, r.2.1, r.2.2)) := by
  induction L with
  | nil =>
    simp only [List.nil_append]
    cases findSplit rest <;> simp
  | cons a t ih =>
    have ha := hL a (List.mem_cons_self a t)
    have ht : ∀ c ∈ t, c ≠ '\r' ∧ c ≠ '\n' := fun c hc => hL c (List.mem_cons_of_mem a hc)
    rw [List.cons_append, findSplit_cons_nonbreak _ ha.1 ha.2, ih ht]
    cases findSplit rest <;> simp

/-- The closing `--- newline` matches directly after a candidate linesep,
for the grammar newlines `\n` and `\r\n`, in every combination. -/
theorem findSplit_end_nl {n1 n2 : List Char} (c : List Char) (h1 : specNL n1)
    (h2 : specNL n2) :
    findSplit (n1 ++ (dashes ++ (n2 ++ c))) = some ([], n1, c) := by
  rcases h1 with rfl | rfl <;> rcases h2 with rfl | rfl <;> rfl

theorem tryDelim_cr {c : List Char} (hc : isPre lfOnly c = false) :
    tryDelim (dashes ++ (crOnly ++ c)) = some c := by
  have key : tryDelim (dashes ++ (crOnly ++ c)) =
      if isPre lfOnly c = true then some (List.drop 2 ('\r' :: c)) else some c := rfl
  rw [key, hc]
  simp

theorem splitHere_end_cr {c : List Char} (hc : isPre lfOnly c = false) :
    splitHere (crOnly ++ (dashes ++ (crOnly ++ c))) = some (crOnly, c) := by
  have key : splitHere (crOnly ++ (dashes ++ (crOnly ++ c))) =
      match tryDelim (dashes ++ (crOnly ++ c)) with
      | some x => some (crOnly, x)
      | none => none := rfl
  rw [key, tryDelim_cr hc]

/-- The bare-`\r` variant of the closing match: content must not begin with
`\n` (else `\r\n` would be consumed instead). -/
theorem findSplit_end_cr {c : List Char} (hc : isPre lfOnly c = false) :
    findSplit (crOnly ++ (dashes ++ (crOnly ++ c))) = some ([], crOnly, c) := by
  have key : findSplit (crOnly ++ (dashes ++ (crOnly ++ c))) =
      match splitHere (crOnly ++ (dashes ++ (crOnly ++ c))) with
      | some r => some ([], r.1, r.2)
      | none =>
        (findSplit (dashes ++ (crOnly ++ c))).map
          (fun r => ('\r' :: r.1, r.2.1, r.2.2)) := rfl
  rw [key, splitHere_end_cr hc]

theorem tryDelim_not_dashes {s : List Char} (h : isPre dashes s = false) :
    tryDelim s = none := by
  simp [tryDelim, h]

theorem tryDelim_dashes_nonbreak {e : Char} (Y : List Char) (h1 : e ≠ '\r')
    (h2 : e ≠ '\n') : tryDelim (dashes ++ (e :: Y)) = none := by
  have key : tryDelim (dashes ++ (e :: Y)) =
      if isPre crlf (e :: Y) = true then some (List.drop 2 (e :: Y))
      else if isPre crOnly (e :: Y) = true then some (List.drop 1 (e :: Y))
      else if isPre lfOnly (e :: Y) = true then some (List.drop 1 (e :: Y))
      else none := rfl
  have e1 : isPre crlf (e :: Y) = false := by simp [crlf, isPre, Ne.symm h1]
  have e2 : isPre crOnly (e :: Y) = false := by simp [crOnly, isPre, Ne.symm h1]
  have e3 : isPre lfOnly (e :: Y) = false := by simp [lfOnly, isPre, Ne.symm h2]
  rw [key, e1, e2, e3]
  simp

/-- A header line (colon-bearing, break-free) can never begin a closing
delimiter: `tryDelim` fails at it. -/
theorem tryDelim_line_none {L : List Char} (tail : List Char)
    (hcolon : ':' ∈ L) (hL : ∀ c ∈ L, isBreakChar c = false) :
    tryDelim (L ++ tail) = none := by
  rcases L with _ | ⟨a, _ | ⟨b, _ | ⟨d, L4⟩⟩⟩
  · simp at hcolon
  · have ha : (':' : Char) = a := by simpa using hcolon
    subst ha
    exact tryDelim_not_dashes (by simp [dashes, isPre])
  · rcases (by simpa using hcolon : (':' : Char) = a ∨ (':' : Char) = b) with h | h
    · subst h
      exact tryDelim_not_dashes (by simp [dashes, isPre])
    · subst h
      by_cases x1 : ('-' : Char) = a
      · subst x1
        exact tryDelim_not_dashes (by simp [dashes, isPre])
      · exact tryDelim_not_dashes (by simp [dashes, isPre, x1])
  · by_cases habc : ('-' : Char) = a ∧ ('-' : Char) = b ∧ ('-' : Char) = d
    · obtain ⟨x1, x2, x3⟩ := habc
      subst x1; subst x2; subst x3
      have hc4 : ':' ∈ L4 := by
        simp only [List.mem_cons] at hcolon
        rcases hcolon with h | h | h | h
        · exact absurd h (by decide)
        · exact absurd h (by decide)
        · exact absurd h (by decide)
        · exact h
      rcases L4 with _ | ⟨e, L5⟩
      · simp at hc4
      · have he := break_eq_false_ne (hL e (by simp))
        have key : ('-' :: '-' :: '-' :: e :: L5) ++ tail =
            dashes ++ (e :: (L5 ++ tail)) := by simp [dashes]
        rw [key]
        exact tryDelim_dashes_nonbreak _ he.1 he.2
    · by_cases x1 : ('-' : Char) = a
      · by_cases x2 : ('-' : Char) = b
        · by_cases x3 : ('-' : Char) = d
          · exact absurd ⟨x1, x2, x3⟩ habc
          · exact tryDelim_not_dashes (by simp [dashes, isPre, ← x1, ← x2, x3])
        · exact tryDelim_not_dashes (by simp [dashes, isPre, ← x1, x2])
      · exact tryDelim_not_dashes (by simp [dashes, isPre, x1])

/-- The scan steps over a grammar newline followed by another header line:
no split fires there. -/
theorem findSplit_sep {n L : List Char} (tail : List Char) (hn : specNL n)
    (hcolon : ':' ∈ L) (hL : ∀ c ∈ L, isBreakChar c = false) :
    findSplit (n ++ (L ++ tail)) =
      (findSplit (L ++ tail)).map (fun r => (n ++ r.1, r.2.1, r.2.2)) := by
  have hd := tryDelim_line_none tail hcolon hL
  rcases hn with rfl | rfl
  · have key : findSplit (lfOnly ++ (L ++ tail)) =
        match (match tryDelim (L ++ tail) with
               | some x => some (lfOnly, x)
               | none => none : Option (List Char × List Char)) with
        | some r => some ([], r.1, r.2)
        | none => (findSplit (L ++ tail)).map (fun r => ('\n' :: r.1, r.2.1, r.2.2)) := rfl
    rw [key, hd]
    cases findSplit (L ++ tail) <;> simp [lfOnly]
  · have key1 : splitHere ('\r' :: '\n' :: (L ++ tail)) =
        match tryDelim (L ++ tail) with
        | some x => some (crlf, x)
        | none => none := rfl
    have key2 : splitHere ('\n' :: (L ++ tail)) =
        match tryDelim (L ++ tail) with
        | some x => some (lfOnly, x)
        | none => none := rfl
    have hs1 : splitHere ('\r' :: '\n' :: (L ++ tail)) = none := by rw [key1, hd]
    have hs2 : splitHere ('\n' :: (L ++ tail)) = none := by rw [key2, hd]
    have key3 : findSplit (crlf ++ (L ++ tail)) =
        match splitHere ('\r' :: '\n' :: (L ++ tail)) with
        | some r => some ([], r.1, r.2)
        | none =>
          (findSplit ('\n' :: (L ++ tail))).map
            (fun r => ('\r' :: r.1, r.2.1, r.2.2)) := rfl
    have key4 : findSplit ('\n' :: (L ++ tail)) =
        match splitHere ('\n' :: (L ++ tail)) with
        | some r => some ([], r.1, r.2)
        | none =>
          (findSplit (L ++ tail)).map (fun r => ('\n' :: r.1, r.2.1, r.2.2)) := rfl
    rw [key3, hs1, key4, hs2]
    cases findSplit (L ++ tail) <;> simp [crlf]

/-- Build a full `template` match from a matching tail, for the grammar
newlines after the opening delimiter. -/
theorem matchTemplate_build {nl0 rest : List Char}
    {r : List Char × List Char × List Char} (h0 : specNL nl0)
    (hf : findSplit rest = some r) :
    matchTemplate (dashes ++ (nl0 ++ rest)) = some r := by
  rcases h0 with rfl | rfl
  · have key : matchTemplate (dashes ++ (lfOnly ++ rest)) = findSplit rest := rfl
    rw [key, hf]
  · have key : matchTemplate (dashes ++ (crlf ++ rest)) =
        match findSplit rest with
        | some r => some r
        | none =>
          match findSplit ('\n' :: rest) with
          | some r => some r
          | none => none := rfl
    rw [key, hf]

/-- Build a full `template` match whose opening newline is a bare `\r`
(the tail must not begin with `\n`, otherwise `\r\n` would match first). -/
theorem matchTemplate_build_cr {rest : List Char}
    {r : List Char × List Char × List Char}
    (hne : isPre lfOnly rest = false) (hf : findSplit rest = some r) :
    matchTemplate (dashes ++ (crOnly ++ rest)) = some r := by
  have e1 : isPre crlf ('\r' :: rest) = false := by
    have h : isPre crlf ('\r' :: rest) = isPre lfOnly rest := rfl
    rw [h, hne]
  have e2 : isPre crOnly ('\r' :: rest) = true := rfl
  have key : matchTemplate (dashes ++ (crOnly ++ rest)) =
      match (if isPre crlf ('\r' :: rest) = true then findSplit (List.drop 1 rest) else none) with
      | some r => some r
      | none =>
        match (if isPre crOnly ('\r' :: rest) = true then findSplit rest else none) with
        | some r => some r
        | none => if isPre lfOnly ('\r' :: rest) = true then findSplit rest else none := rfl
  rw [key, e1, e2, hf]
  simp


/-! ## Decomposition of a successful `template` match -/

/-- The newline alternatives of the regex. -/
def regexNL (nl : List Char) : Prop :=
  nl = crlf ∨ nl = crOnly ∨ nl = lfOnly

theorem tryDelim_some_decomp {s c : List Char} (h : tryDelim s = some c) :
    ∃ nl2, regexNL nl2 ∧ s = dashes ++ (nl2 ++ c) := by
  unfold tryDelim at h
  by_cases hd : isPre dashes s = true
  · rw [if_pos hd] at h
    obtain ⟨t, rfl⟩ := isPre_iff.mp hd
    have hdrop : (dashes ++ t).drop 3 = t := rfl
    rw [hdrop] at h
    by_cases h1 : isPre crlf t = true
    · rw [if_pos h1] at h
      obtain ⟨u, rfl⟩ := isPre_iff.mp h1
      have : (crlf ++ u).drop 2 = u := rfl
      rw [this] at h
      injection h with h
      exact ⟨crlf, Or.inl rfl, by rw [← h]⟩
    · rw [if_neg h1] at h
      by_cases h2 : isPre crOnly t = true
      · rw [if_pos h2] at h
        obtain ⟨u, rfl⟩ := isPre_iff.mp h2
        have : (crOnly ++ u).drop 1 = u := rfl
        rw [this] at h
        injection h with h
        exact ⟨crOnly, Or.inr (Or.inl rfl), by rw [← h]⟩
      · rw [if_neg h2] at h
        by_cases h3 : isPre lfOnly t = true
        · rw [if_pos h3] at h
          obtain ⟨u, rfl⟩ := isPre_iff.mp h3
          have : (lfOnly ++ u).drop 1 = u := rfl
          rw [this] at h
          injection h with h
          exact ⟨lfOnly, Or.inr (Or.inr rfl), by rw [← h]⟩
        · rw [if_neg h3] at h
          exact absurd h (by simp)
  · rw [if_neg hd] at h
    exact absurd h (by simp)

theorem splitHere_some_decomp {s ls c : List Char}
    (h : splitHere s = some (ls, c)) :
    regexNL ls ∧ ∃ nl2, regexNL nl2 ∧ s = ls ++ (dashes ++ (nl2 ++ c)) := by
  unfold splitHere at h
  by_cases h1 : isPre crlf s = true
  · obtain ⟨t, rfl⟩ := isPre_iff.mp h1
    have hdrop : (crlf ++ t).drop 2 = t := rfl
    rw [if_pos h1, hdrop] at h
    cases hd : tryDelim t with
    | some x =>
      rw [hd] at h
      injection h with h
      injection h with hls hc
      obtain ⟨nl2, hmem, hdec⟩ := tryDelim_some_decomp hd
      subst hls
      refine ⟨Or.inl rfl, nl2, hmem, ?_⟩
      rw [hdec, hc]
    | none =>
      rw [hd] at h
      have hcr : isPre crOnly (crlf ++ t) = true := rfl
      have hdrop1 : (crlf ++ t).drop 1 = '\n' :: t := rfl
      rw [if_pos hcr, hdrop1] at h
      have hno : tryDelim ('\n' :: t) = none :=
        tryDelim_not_dashes (by simp [dashes, isPre])
      rw [hno] at h
      have hlf : isPre lfOnly (crlf ++ t) = false := rfl
      rw [hlf] at h
      simp at h
  · rw [if_neg h1] at h
    by_cases h2 : isPre crOnly s = true
    · obtain ⟨t, rfl⟩ := isPre_iff.mp h2
      have hdrop : (crOnly ++ t).drop 1 = t := rfl
      rw [if_pos h2, hdrop] at h
      cases hd : tryDelim t with
      | some x =>
        rw [hd] at h
        injection h with h
        injection h with hls hc
        subst hls
        obtain ⟨nl2, hmem, hdec⟩ := tryDelim_some_decomp hd
        refine ⟨Or.inr (Or.inl rfl), nl2, hmem, ?_⟩
        rw [hdec, hc]
      | none =>
        rw [hd] at h
        have hlf : isPre lfOnly (crOnly ++ t) = false := rfl
        rw [hlf] at h
        simp at h
    · rw [if_neg h2] at h
      by_cases h3 : isPre lfOnly s = true
      · obtain ⟨t, rfl⟩ := isPre_iff.mp h3
        have hdrop : (lfOnly ++ t).drop 1 = t := rfl
        rw [if_pos h3, hdrop] at h
        cases hd : tryDelim t with
        | some x =>
          rw [hd] at h
          injection h with h
          injection h with hls hc
          obtain ⟨nl2, hmem, hdec⟩ := tryDelim_some_decomp hd
          subst hls
          refine ⟨Or.inr (Or.inr rfl), nl2, hmem, ?_⟩
          rw [hdec, hc]
        | none =>
          rw [hd] at h
          simp at h
      · rw [if_neg h3] at h
        simp at h

theorem findSplit_some_decomp {s : List Char}
    {r : List Char × List Char × List Char} (h : findSplit s = some r) :
    regexNL r.2.1 ∧ ∃ nl2, regexNL nl2 ∧
      s = r.1 ++ (r.2.1 ++ (dashes ++ (nl2 ++ r.2.2))) := by
  induction s generalizing r with
  | nil => exact absurd h (by simp [findSplit])
  | cons a t ih =>
    rw [findSplit] at h
    cases hs : splitHere (a :: t) with
    | some p =>
      rw [hs] at h
      injection h with h
      obtain ⟨hls, nl2, hmem, hdec⟩ := @splitHere_some_decomp (a :: t) p.1 p.2 hs
      subst h
      exact ⟨hls, nl2, hmem, by simpa using hdec⟩
    | none =>
      rw [hs] at h
      cases hf : findSplit t with
      | none => rw [hf] at h; simp at h
      | some r2 =>
        rw [hf] at h
        injection h with h
        subst h
        obtain ⟨hls, nl2, hmem, hdec⟩ := ih hf
        refine ⟨hls, nl2, hmem, ?_⟩
        simp only [List.cons_append]
        exact congrArg (fun x => a :: x) hdec

/-- A successful `template` match decomposes the document exactly as the
pattern reads: `---`, a newline, the header group, the captured linesep,
`---`, a newline, and the content group, which is the verbatim remainder
of the document. -/
theorem matchTemplate_some_decomp {s : List Char}
    {r : List Char × List Char × List Char} (h : matchTemplate s = some r) :
    regexNL r.2.1 ∧ ∃ nl1 nl2, regexNL nl1 ∧ regexNL nl2 ∧
      s = dashes ++ (nl1 ++ (r.1 ++ (r.2.1 ++ (dashes ++ (nl2 ++ r.2.2))))) := by
  unfold matchTemplate at h
  by_cases hd : isPre dashes s = true
  · rw [if_pos hd] at h
    obtain ⟨t, rfl⟩ := isPre_iff.mp hd
    have hdrop : (dashes ++ t).drop 3 = t := rfl
    rw [hdrop] at h
    by_cases h1 : isPre crlf t = true
    · obtain ⟨u, rfl⟩ := isPre_iff.mp h1
      have hd2 : (crlf ++ u).drop 2 = u := rfl
      rw [if_pos h1, hd2] at h
      cases hf : findSplit u with
      | some r2 =>
        rw [hf] at h
        injection h with h
        subst h
        obtain ⟨hls, nl2, hmem, hdec⟩ := findSplit_some_decomp hf
        exact ⟨hls, crlf, nl2, Or.inl rfl, hmem, by rw [hdec]⟩
      | none =>
        rw [hf] at h
        have hcr : isPre crOnly (crlf ++ u) = true := rfl
        have hd1 : (crlf ++ u).drop 1 = '\n' :: u := rfl
        rw [if_pos hcr, hd1] at h
        cases hf2 : findSplit ('\n' :: u) with
        | some r2 =>
          rw [hf2] at h
          injection h with h
          subst h
          obtain ⟨hls, nl2, hmem, hdec⟩ := findSplit_some_decomp hf2
          refine ⟨hls, crOnly, nl2, Or.inr (Or.inl rfl), hmem, ?_⟩
          have : crlf ++ u = crOnly ++ ('\n' :: u) := rfl
          rw [this, hdec]
        | none =>
          rw [hf2] at h
          have hlf : isPre lfOnly (crlf ++ u) = false := rfl
          rw [hlf] at h
          simp at h
    · rw [if_neg h1] at h
      by_cases h2 : isPre crOnly t = true
      · obtain ⟨u, rfl⟩ := isPre_iff.mp h2
        have hd1 : (crOnly ++ u).drop 1 = u := rfl
        rw [if_pos h2, hd1] at h
        cases hf : findSplit u with
        | some r2 =>
          rw [hf] at h
          injection h with h
          subst h
          obtain ⟨hls, nl2, hmem, hdec⟩ := findSplit_some_decomp hf
          exact ⟨hls, crOnly, nl2, Or.inr (Or.inl rfl), hmem, by rw [hdec]⟩
        | none =>
          rw [hf] at h
          by_cases h3 : isPre lfOnly (crOnly ++ u) = true
          · rw [if_pos h3] at h
            exact absurd h3 (by simp [lfOnly, crOnly, isPre])
          · rw [if_neg h3] at h
            simp at h
      · rw [if_neg h2] at h
        by_cases h3 : isPre lfOnly t = true
        · obtain ⟨u, rfl⟩ := isPre_iff.mp h3
          have hd1 : (lfOnly ++ u).drop 1 = u := rfl
          rw [if_pos h3, hd1] at h
          cases hf : findSplit u with
          | some r2 =>
            rw [hf] at h
            injection h with h
            subst h
            obtain ⟨hls, nl2, hmem, hdec⟩ := findSplit_some_decomp hf
            exact ⟨hls, lfOnly, nl2, Or.inr (Or.inr rfl), hmem, by rw [hdec]⟩
          | none => rw [hf] at h; simp at h
        · rw [if_neg h3] at h
          simp at h
  · rw [if_neg hd] at h
    simp at h


/-! ## Behavior of the header-line loop -/

theorem parseHeaderLines_cons_none {l : List Char} (rest : List (List Char))
    (s : Snippet) (hm : lineMatch l = none) :
    parseHeaderLines (l :: rest) s = .err .headerLine := by
  rw [parseHeaderLines, hm]

theorem parseHeaderLines_cons_some {l : List Char} (rest : List (List Char))
    (s : Snippet) {kv : List Char × List Char} (hm : lineMatch l = some kv) :
    parseHeaderLines (l :: rest) s =
      if pyStrip kv.1 = descKey ∨ pyStrip kv.1 = tabKey ∨ pyStrip kv.1 = scopeKey then
        parseHeaderLines rest (setSnippetKey s (pyStrip kv.1) (parse_val kv.2))
      else .err (.unknownKey (pyStrip kv.1)) := by
  rw [parseHeaderLines, hm]

theorem setSnippetKey_keeps (s : Snippet) (k v : List Char) :
    (setSnippetKey s k v).path = s.path ∧ (setSnippetKey s k v).name = s.name ∧
    (setSnippetKey s k v).linesep = s.linesep ∧
    (setSnippetKey s k v).content = s.content := by
  by_cases h1 : k = descKey
  · simp [setSnippetKey, h1]
  · by_cases h2 : k = tabKey <;>
      simp [setSnippetKey, h1, h2, (by decide : tabKey ≠ descKey)]

theorem setK_desc_eq (s : Snippet) (v : List Char) :
    (setSnippetKey s descKey v).description = v := by
  simp [setSnippetKey]

theorem setK_desc_ne {k : List Char} (s : Snippet) (v : List Char)
    (h : k ≠ descKey) : (setSnippetKey s k v).description = s.description := by
  by_cases h2 : k = tabKey <;>
    simp [setSnippetKey, h, h2, (by decide : tabKey ≠ descKey)]

theorem setK_tab_eq (s : Snippet) (v : List Char) :
    (setSnippetKey s tabKey v).tabTrigger = v := by
  simp [setSnippetKey, (by decide : tabKey ≠ descKey)]

theorem setK_tab_ne {k : List Char} (s : Snippet) (v : List Char)
    (h : k ≠ tabKey) : (setSnippetKey s k v).tabTrigger = s.tabTrigger := by
  by_cases h1 : k = descKey <;> simp [setSnippetKey, h, h1]

theorem setK_scope_eq (s : Snippet) (v : List Char) :
    (setSnippetKey s scopeKey v).scope = v := by
  simp [setSnippetKey, (by decide : scopeKey ≠ descKey),
    (by decide : scopeKey ≠ tabKey)]

theorem setK_scope_ne {k : List Char} (s : Snippet) (v : List Char)
    (h : k ≠ scopeKey) (hk : k = descKey ∨ k = tabKey) :
    (setSnippetKey s k v).scope = s.scope := by
  rcases hk with rfl | rfl
  · simp [setSnippetKey]
  · simp [setSnippetKey, (by decide : tabKey ≠ descKey)]

theorem parseHeaderLines_keeps {lines : List (List Char)} {s z : Snippet}
    (h : parseHeaderLines lines s = .ok z) :
    z.path = s.path ∧ z.name = s.name ∧ z.linesep = s.linesep ∧
    z.content = s.content := by
  induction lines generalizing s with
  | nil =>
    rw [parseHeaderLines] at h
    injection h with h
    subst h
    exact ⟨rfl, rfl, rfl, rfl⟩
  | cons l rest ih =>
    cases hm : lineMatch l with
    | none => rw [parseHeaderLines_cons_none rest s hm] at h; exact absurd h (by simp)
    | some kv =>
      rw [parseHeaderLines_cons_some rest s hm] at h
      by_cases hk : pyStrip kv.1 = descKey ∨ pyStrip kv.1 = tabKey ∨ pyStrip kv.1 = scopeKey
      · rw [if_pos hk] at h
        have hkeep := setSnippetKey_keeps s (pyStrip kv.1) (parse_val kv.2)
        have hrec := ih h
        exact ⟨by rw [hrec.1, hkeep.1], by rw [hrec.2.1, hkeep.2.1],
               by rw [hrec.2.2.1, hkeep.2.2.1], by rw [hrec.2.2.2, hkeep.2.2.2]⟩
      · rw [if_neg hk] at h
        exact absurd h (by simp)

/-- An empty line anywhere in the header-line list makes the loop fail. -/
theorem parseHeaderLines_blank {lines : List (List Char)} (s : Snippet)
    (h : [] ∈ lines) : ∃ e, parseHeaderLines lines s = .err e := by
  induction lines generalizing s with
  | nil => simp at h
  | cons l rest ih =>
    rcases List.mem_cons.mp h with rfl | hmem
    · exact ⟨.headerLine, rfl⟩
    · cases hm : lineMatch l with
      | none => exact ⟨.headerLine, parseHeaderLines_cons_none rest s hm⟩
      | some kv =>
        by_cases hk : pyStrip kv.1 = descKey ∨ pyStrip kv.1 = tabKey ∨ pyStrip kv.1 = scopeKey
        · obtain ⟨e, he⟩ := ih (setSnippetKey s (pyStrip kv.1) (parse_val kv.2)) hmem
          refine ⟨e, ?_⟩
          rw [parseHeaderLines_cons_some rest s hm, if_pos hk]
          exact he
        · refine ⟨.unknownKey (pyStrip kv.1), ?_⟩
          rw [parseHeaderLines_cons_some rest s hm, if_neg hk]

/-- A successful loop means every header line matched `key: value` with a
recognized key: there is no silent-ignore path. -/
theorem parseHeaderLines_ok_keys {lines : List (List Char)} {s z : Snippet}
    (h : parseHeaderLines lines s = .ok z) :
    ∀ l ∈ lines, ∃ kv, lineMatch l = some kv ∧
      (pyStrip kv.1 = descKey ∨ pyStrip kv.1 = tabKey ∨ pyStrip kv.1 = scopeKey) := by
  induction lines generalizing s with
  | nil => intro l hl; simp at hl
  | cons l0 rest ih =>
    intro l hl
    cases hm : lineMatch l0 with
    | none => rw [parseHeaderLines_cons_none rest s hm] at h; exact absurd h (by simp)
    | some kv =>
      rw [parseHeaderLines_cons_some rest s hm] at h
      by_cases hk : pyStrip kv.1 = descKey ∨ pyStrip kv.1 = tabKey ∨ pyStrip kv.1 = scopeKey
      · rw [if_pos hk] at h
        rcases List.mem_cons.mp hl with rfl | hmem
        · exact ⟨kv, hm, hk⟩
        · exact ih h l hmem
      · rw [if_neg hk] at h
        exact absurd h (by simp)

theorem lastValue_cons_some {l : List Char} {rest : List (List Char)}
    {k w : List Char} (h1 : lastValue rest k = some w) :
    lastValue (l :: rest) k = some w := by
  rw [lastValue, h1]

theorem lastValue_cons_none {l : List Char} {rest : List (List Char)}
    {k : List Char} (h1 : lastValue rest k = none)
    {kv : List Char × List Char} (h2 : lineMatch l = some kv) :
    lastValue (l :: rest) k =
      if pyStrip kv.1 = k then some (parse_val kv.2) else none := by
  rw [lastValue, h1, h2]

/-- Each recognized-key assignment overwrites the field: the final value of
every field is its last occurrence in the header, or the starting value
when the key never occurs. -/
theorem parseHeaderLines_last {lines : List (List Char)} {s z : Snippet}
    (h : parseHeaderLines lines s = .ok z) :
    z.description = (lastValue lines descKey).getD s.description ∧
    z.tabTrigger = (lastValue lines tabKey).getD s.tabTrigger ∧
    z.scope = (lastValue lines scopeKey).getD s.scope := by
  induction lines generalizing s with
  | nil =>
    rw [parseHeaderLines] at h
    injection h with h
    subst h
    exact ⟨by simp [lastValue], by simp [lastValue], by simp [lastValue]⟩
  | cons l rest ih =>
    cases hm : lineMatch l with
    | none => rw [parseHeaderLines_cons_none rest s hm] at h; exact absurd h (by simp)
    | some kv =>
      rw [parseHeaderLines_cons_some rest s hm] at h
      by_cases hk : pyStrip kv.1 = descKey ∨ pyStrip kv.1 = tabKey ∨ pyStrip kv.1 = scopeKey
      · rw [if_pos hk] at h
        have hrec := ih h
        refine ⟨?_, ?_, ?_⟩
        · rw [hrec.1]
          cases hlast : lastValue rest descKey with
          | some w =>
            rw [lastValue_cons_some hlast]
            simp
          | none =>
            rw [lastValue_cons_none hlast hm]
            by_cases hkd : pyStrip kv.1 = descKey
            · rw [if_pos hkd]
              conv_lhs => rw [hkd]
              rw [setK_desc_eq]
              simp
            · rw [if_neg hkd, setK_desc_ne _ _ hkd]
        · rw [hrec.2.1]
          cases hlast : lastValue rest tabKey with
          | some w =>
            rw [lastValue_cons_some hlast]
            simp
          | none =>
            rw [lastValue_cons_none hlast hm]
            by_cases hkd : pyStrip kv.1 = tabKey
            · rw [if_pos hkd]
              conv_lhs => rw [hkd]
              rw [setK_tab_eq]
              simp
            · rw [if_neg hkd, setK_tab_ne _ _ hkd]
        · rw [hrec.2.2]
          cases hlast : lastValue rest scopeKey with
          | some w =>
            rw [lastValue_cons_some hlast]
            simp
          | none =>
            rw [lastValue_cons_none hlast hm]
            by_cases hkd : pyStrip kv.1 = scopeKey
            · rw [if_pos hkd]
              conv_lhs => rw [hkd]
              rw [setK_scope_eq]
              simp
            · have hk2 : pyStrip kv.1 = descKey ∨ pyStrip kv.1 = tabKey := by
                rcases hk with h1 | h1 | h1
                · exact Or.inl h1
                · exact Or.inr h1
                · exact absurd h1 hkd
              rw [if_neg hkd, setK_scope_ne _ _ hkd hk2]
      · rw [if_neg hk] at h
        exact absurd h (by simp)

/-- A line list whose keys (split at the first colon, trimmed) are all
recognized parses without error. -/
theorem parseHeaderLines_ok_of_keys {lines : List (List Char)} (s : Snippet)
    (hk : ∀ l ∈ lines, lineKeyOf l = some descKey ∨ lineKeyOf l = some tabKey ∨
      lineKeyOf l = some scopeKey) :
    ∃ z, parseHeaderLines lines s = .ok z := by
  induction lines generalizing s with
  | nil => exact ⟨s, rfl⟩
  | cons l rest ih =>
    have hl := hk l (List.mem_cons_self l rest)
    have hcol : ∃ kv, splitAtFirstColon l = some kv ∧
        (pyStrip kv.1 = descKey ∨ pyStrip kv.1 = tabKey ∨ pyStrip kv.1 = scopeKey) := by
      rcases hl with h | h | h <;>
      · unfold lineKeyOf at h
        cases hs : splitAtFirstColon l with
        | none => rw [hs] at h; simp at h
        | some kv =>
          rw [hs] at h
          simp at h
          exact ⟨kv, rfl, by simp [h]⟩
    obtain ⟨kv, hs, hkv⟩ := hcol
    have hm : lineMatch l = some (kv.1, kv.2.dropWhile isPySpace) := by
      simp [lineMatch, hs]
    obtain ⟨z, hz⟩ := ih (setSnippetKey s (pyStrip kv.1) (parse_val (kv.2.dropWhile isPySpace)))
      (fun l2 h2 => hk l2 (List.mem_cons_of_mem l h2))
    refine ⟨z, ?_⟩
    rw [parseHeaderLines_cons_some rest s hm, if_pos (by simpa using hkv)]
    simpa using hz

theorem parse_snippet_malformed {p n text : List Char}
    (h : matchTemplate text = none) : parse_snippet p n text = .err .malformed := by
  simp [parse_snippet, h]

theorem parse_snippet_some {p n text : List Char}
    {r : List Char × List Char × List Char} (h : matchTemplate text = some r) :
    parse_snippet p n text =
      parseHeaderLines (pySplitlines r.1)
        { path := p, name := n, description := n, tabTrigger := [], scope := [],
          linesep := r.2.1, content := r.2.2 } := by
  simp [parse_snippet, h]


/-! ## Assembling a grammar document into a `template` match -/

theorem hbBlock_nil : hbBlock [] = [] := rfl

theorem hbBlock_cons (p : List Char × List Char)
    (ps : List (List Char × List Char)) :
    hbBlock (p :: ps) = (p.1 ++ p.2) ++ hbBlock ps := by
  simp [hbBlock]

theorem hbHeader_single (p : List Char × List Char) : hbHeader [p] = p.1 := by
  simp [hbHeader]

theorem hbHeader_cons (p q : List Char × List Char)
    (rest : List (List Char × List Char)) :
    hbHeader (p :: q :: rest) = p.1 ++ (p.2 ++ hbHeader (q :: rest)) := by
  rw [hbHeader]
  · simp
  · simp

theorem hbLastNL_single (p : List Char × List Char) : hbLastNL [p] = p.2 := by
  simp [hbLastNL]

theorem hbLastNL_cons (p q : List Char × List Char)
    (rest : List (List Char × List Char)) :
    hbLastNL (p :: q :: rest) = hbLastNL (q :: rest) := by
  rw [hbLastNL]
  simp

theorem specHeaderLine_nonbreak {l : List Char} (h : specHeaderLine l) :
    ∀ c ∈ l, c ≠ '\r' ∧ c ≠ '\n' :=
  fun c hc => break_eq_false_ne (h.1 c hc)

/-- The lazy scan of a grammar document's tail finds its split exactly at
the final newline of the header block. -/
theorem findSplit_hbBlock {ps : List (List Char × List Char)}
    (nl1 c : List Char)
    (hps : ∀ p ∈ ps, specHeaderLine p.1 ∧ specNL p.2) (hne : ps ≠ [])
    (h1 : specNL nl1) :
    findSplit (hbBlock ps ++ (dashes ++ (nl1 ++ c))) =
      some (hbHeader ps, hbLastNL ps, c) := by
  induction ps with
  | nil => exact absurd rfl hne
  | cons p rest ih =>
    obtain ⟨hline, hnl⟩ := hps p (List.mem_cons_self p rest)
    cases rest with
    | nil =>
      rw [hbBlock_cons, hbBlock_nil, List.append_nil]
      rw [List.append_assoc]
      rw [findSplit_line _ (specHeaderLine_nonbreak hline)]
      rw [findSplit_end_nl c hnl h1]
      simp [hbHeader_single, hbLastNL_single]
    | cons q rest2 =>
      obtain ⟨hlineq, _⟩ := hps q (by simp)
      have ihq := ih (fun r hr => hps r (List.mem_cons_of_mem p hr)) (by simp)
      simp only [hbBlock_cons, List.append_assoc] at ihq ⊢
      rw [findSplit_line _ (specHeaderLine_nonbreak hline)]
      have hsep := findSplit_sep
        (q.2 ++ (hbBlock rest2 ++ (dashes ++ (nl1 ++ c)))) hnl
        hlineq.2 hlineq.1
      rw [hsep, ihq]
      simp [hbHeader_cons, hbLastNL_cons]

/-- Splitting the captured header group of a grammar document recovers
exactly its header lines. -/
theorem pySplitlines_header {ps : List (List Char × List Char)}
    (hps : ∀ p ∈ ps, specHeaderLine p.1 ∧ specNL p.2) (hne : ps ≠ []) :
    pySplitlines (hbHeader ps) = ps.map (fun p => p.1) := by
  induction ps with
  | nil => exact absurd rfl hne
  | cons p rest ih =>
    obtain ⟨hline, hnl⟩ := hps p (List.mem_cons_self p rest)
    have hpne : p.1 ≠ [] := List.ne_nil_of_mem hline.2
    cases rest with
    | nil =>
      rw [hbHeader_single]
      rw [pySplitlines_single hpne hline.1]
      rfl
    | cons q rest2 =>
      rw [hbHeader_cons]
      unfold pySplitlines
      rw [splitlinesAux_line _ _ hline.1]
      have ihq := ih (fun r hr => hps r (List.mem_cons_of_mem p hr)) (by simp)
      unfold pySplitlines at ihq
      rcases hnl with h | h
      · rw [h]
        rw [show lfOnly ++ hbHeader (q :: rest2) = '\n' :: hbHeader (q :: rest2) from rfl]
        rw [splitlinesAux_lf, ihq]
        simp
      · rw [h]
        rw [show crlf ++ hbHeader (q :: rest2) =
          '\r' :: '\n' :: hbHeader (q :: rest2) from rfl]
        rw [splitlinesAux_crlf, ihq]
        simp

theorem lineKeyOf_append {pre : List Char} (post : List Char) (h : ':' ∉ pre) :
    lineKeyOf (pre ++ ':' :: post) = some (pyStrip pre) := by
  simp [lineKeyOf, splitAtFirstColon_append post h]


/-! ## Claim C9 -/

/-- C9: each header line is split at its first colon; the recorded key is
the text before that colon stripped of surrounding whitespace, and the
recorded value (`parse_val` applied after the regex's `\s*`) is the text
after it stripped of surrounding whitespace — which may itself contain
colons.  A line with no colon does not match `line_template` at all. -/
theorem c9_header_split :
    (∀ l : List Char, ':' ∉ l → lineMatch l = none) ∧
    (∀ pre post : List Char, ':' ∉ pre →
      ∃ kv, lineMatch (pre ++ ':' :: post) = some kv ∧
        pyStrip kv.1 = pyStrip pre ∧ parse_val kv.2 = pyStrip post) := by
  constructor
  · intro l h
    simp [lineMatch, splitAtFirstColon_of_not_mem h]
  · intro pre post h
    refine ⟨(pre, post.dropWhile isPySpace), ?_, rfl, ?_⟩
    · simp [lineMatch, splitAtFirstColon_append post h]
    · exact pyStrip_dropWhile post

/-- Witness for C9 at a concrete header line with interior whitespace and a
colon inside the value. -/
theorem c9_header_split_witness :
    (':' ∉ " tabTrigger ".toList) ∧
    (∃ kv, lineMatch (" tabTrigger ".toList ++ ':' :: " a:b ".toList) = some kv ∧
      pyStrip kv.1 = pyStrip " tabTrigger ".toList ∧
      parse_val kv.2 = pyStrip " a:b ".toList) :=
  ⟨by decide, c9_header_split.2 " tabTrigger ".toList " a:b ".toList (by decide)⟩

/-! ## Claim C10 -/

/-- C10: a bare carriage return is accepted as the newline after the opening
delimiter, as the newline terminating the header block (when it is the
captured `linesep`), and after the closing delimiter; the content must not
begin with `\n` (which would instead complete an `\r\n`). -/
theorem c10_bare_cr (path name d c : List Char)
    (hd : ∀ ch ∈ d, isBreakChar ch = false)
    (hc : isPre lfOnly c = false) :
    parse_snippet path name
      (dashes ++ (crOnly ++ (("description: ".toList ++ d) ++
        (crOnly ++ (dashes ++ (crOnly ++ c)))))) =
      .ok { path := path, name := name, description := pyStrip d,
            tabTrigger := [], scope := [], linesep := crOnly, content := c } := by
  have hline : ∀ ch ∈ ("description: ".toList ++ d), isBreakChar ch = false := by
    intro ch hch
    rcases List.mem_append.mp hch with h | h
    · have hh : ∀ x ∈ "description: ".toList, isBreakChar x = false := by decide
      exact hh ch h
    · exact hd ch h
  have hfs : findSplit (("description: ".toList ++ d) ++
      (crOnly ++ (dashes ++ (crOnly ++ c)))) =
      some ("description: ".toList ++ d, crOnly, c) := by
    rw [findSplit_line _ (fun ch hch => break_eq_false_ne (hline ch hch))]
    rw [findSplit_end_cr hc]
    simp
  have hne : isPre lfOnly (("description: ".toList ++ d) ++
      (crOnly ++ (dashes ++ (crOnly ++ c)))) = false := rfl
  have hmt := matchTemplate_build_cr hne hfs
  rw [parse_snippet_some hmt]
  have hsplit : pySplitlines ("description: ".toList ++ d) =
      ["description: ".toList ++ d] :=
    pySplitlines_single (fun h => absurd (List.append_eq_nil.mp h).1 (by decide)) hline
  rw [hsplit]
  have hpre : "description: ".toList ++ d = "description".toList ++ ':' :: (' ' :: d) := by
    have : "description: ".toList = "description".toList ++ [':', ' '] := by decide
    rw [this]
    simp
  have hsc : splitAtFirstColon ("description: ".toList ++ d) =
      some ("description".toList, ' ' :: d) := by
    rw [hpre]
    exact splitAtFirstColon_append _ (by decide)
  have hm : lineMatch ("description: ".toList ++ d) =
      some ("description".toList, d.dropWhile isPySpace) := by
    rw [lineMatch, hsc]
    rfl
  rw [parseHeaderLines_cons_some [] _ hm]
  have hkey : pyStrip ("description".toList) = descKey := by decide
  rw [if_pos (Or.inl hkey), hkey]
  rw [parseHeaderLines]
  have : setSnippetKey
      { path := path, name := name, description := name, tabTrigger := [],
        scope := [], linesep := crOnly, content := c } descKey
      (parse_val (d.dropWhile isPySpace)) =
      { path := path, name := name, description := pyStrip d, tabTrigger := [],
        scope := [], linesep := crOnly, content := c } := by
    simp [setSnippetKey, parse_val, pyStrip_dropWhile]
  rw [this]

/-- Witness for C10 at a concrete document using `\r` in all three newline
positions. -/
theorem c10_bare_cr_witness :
    (∀ ch ∈ "hi".toList, isBreakChar ch = false) ∧
    isPre lfOnly "body".toList = false ∧
    parse_snippet "p".toList "n".toList
      (dashes ++ (crOnly ++ (("description: ".toList ++ "hi".toList) ++
        (crOnly ++ (dashes ++ (crOnly ++ "body".toList)))))) =
      .ok { path := "p".toList, name := "n".toList,
            description := pyStrip "hi".toList, tabTrigger := [], scope := [],
            linesep := crOnly, content := "body".toList } :=
  ⟨by decide, by decide,
   c10_bare_cr "p".toList "n".toList "hi".toList "body".toList (by decide) (by decide)⟩

/-! ## Claim C2 -/

/-- C2 counterexample: a header block with an empty line just before the
closing delimiter parses successfully (the blank line is silently absorbed
into the delimiter match), and a header block with an empty line between
two recognized lines fails with the header-line error — not the
unknown-key error for the empty key. -/
theorem c2_counterexample :
    parse_snippet "p".toList "n".toList blankBeforeCloseDoc =
      .ok { path := "p".toList, name := "n".toList, description := "X".toList,
            tabTrigger := [], scope := [], linesep := lfOnly,
            content := "c".toList } ∧
    parse_snippet "p".toList "n".toList blankBetweenDoc = .err .headerLine ∧
    SnipErr.headerLine ≠ .unknownKey [] := by
  decide

/-- C2 (amended): an empty line among the split header lines makes parsing
fail fatally, with the header-line error when the empty line is reached (an
empty line has no colon, so it fails `line_template` — it is not reported
as an unknown empty key); a blank line directly before the closing
delimiter is instead absorbed by the match and silently skipped. -/
theorem c2_empty_line :
    (∀ (path name text h ls c : List Char), matchTemplate text = some (h, ls, c) →
      [] ∈ pySplitlines h → ∃ e, parse_snippet path name text = .err e) ∧
    (∀ (rest : List (List Char)) (s : Snippet),
      parseHeaderLines ([] :: rest) s = .err .headerLine) ∧
    parse_snippet "p".toList "n".toList blankBetweenDoc = .err .headerLine := by
  refine ⟨?_, ?_, by decide⟩
  · intro path name text h ls c hm hmem
    obtain ⟨e, he⟩ := parseHeaderLines_blank
      { path := path, name := name, description := name, tabTrigger := [],
        scope := [], linesep := ls, content := c } hmem
    exact ⟨e, by rw [parse_snippet_some hm]; exact he⟩
  · intro rest s
    rfl

/-- Witness for C2 at the concrete blank-line document. -/
theorem c2_empty_line_witness :
    matchTemplate blankBetweenDoc =
      some ("description: X\n\ntabTrigger: y".toList, lfOnly, "c".toList) ∧
    [] ∈ pySplitlines "description: X\n\ntabTrigger: y".toList ∧
    ∃ e, parse_snippet "p".toList "n".toList blankBetweenDoc = .err e :=
  ⟨by decide, by decide,
   c2_empty_line.1 "p".toList "n".toList blankBetweenDoc
     "description: X\n\ntabTrigger: y".toList lfOnly "c".toList
     (by decide) (by decide)⟩

/-! ## Claim C3 -/

/-- C3 counterexample: a document that repeats the recognized key
`description` parses successfully — the second occurrence silently
re-populates the field (the record holds `b`, not the first value `a`, and
no error is raised). -/
theorem c3_counterexample :
    parse_snippet "p".toList "n".toList dupKeyDoc =
      .ok { path := "p".toList, name := "n".toList, description := "b".toList,
            tabTrigger := [], scope := [], linesep := lfOnly,
            content := "c".toList } ∧
    ("b".toList : List Char) ≠ "a".toList := by
  decide

/-- C3 (amended): each recognized-key header line silently overwrites its
field, so after a successful parse every field holds the value of the
key's last occurrence (or its starting default); and there is no
silent-ignore path — a successful parse means every header line matched
`key: value` with a recognized key. -/
theorem c3_header_fields :
    (∀ (lines : List (List Char)) (s z : Snippet),
      parseHeaderLines lines s = .ok z →
      z.description = (lastValue lines descKey).getD s.description ∧
      z.tabTrigger = (lastValue lines tabKey).getD s.tabTrigger ∧
      z.scope = (lastValue lines scopeKey).getD s.scope) ∧
    (∀ (lines : List (List Char)) (s z : Snippet),
      parseHeaderLines lines s = .ok z →
      ∀ l ∈ lines, ∃ kv, lineMatch l = some kv ∧
        (pyStrip kv.1 = descKey ∨ pyStrip kv.1 = tabKey ∨ pyStrip kv.1 = scopeKey)) :=
  ⟨fun _ _ _ h => parseHeaderLines_last h, fun _ _ _ h => parseHeaderLines_ok_keys h⟩

/-- Witness for C3 at the duplicated-key header lines. -/
theorem c3_header_fields_witness :
    parseHeaderLines c3lines baseSnip = .ok { baseSnip with description := "b".toList } ∧
    ({ baseSnip with description := "b".toList } : Snippet).description =
      (lastValue c3lines descKey).getD baseSnip.description :=
  ⟨by decide, (c3_header_fields.1 c3lines baseSnip _ (by decide)).1⟩


/-! ## Claim C5 -/

/-- C5: the serializer produces a single `snippet` root whose children are
exactly, in order, `description`, `tabTrigger`, `scope`, `content` with the
record's fields as their texts; the written string applies standard XML
text escaping of `&`, `<`, `>` with no CDATA, as the Hello-World example
and an escaping example show concretely. -/
theorem c5_serializer :
    (∀ sn : Snippet,
      snippet_to_xml sn =
        ⟨"snippet".toList,
         [⟨"description".toList, sn.description⟩,
          ⟨"tabTrigger".toList, sn.tabTrigger⟩,
          ⟨"scope".toList, sn.scope⟩,
          ⟨"content".toList, sn.content⟩]⟩) ∧
    parse_snippet "hello".toList "hello".toList helloDoc =
      .ok { path := "hello".toList, name := "hello".toList,
            description := "Hello World".toList, tabTrigger := "hello".toList,
            scope := "source.python".toList, linesep := lfOnly,
            content := "print(\"Hello, $1\")".toList } ∧
    serializeSnippet
      { path := "hello".toList, name := "hello".toList,
        description := "Hello World".toList, tabTrigger := "hello".toList,
        scope := "source.python".toList, linesep := lfOnly,
        content := "print(\"Hello, $1\")".toList } =
      "<snippet><description>Hello World</description><tabTrigger>hello</tabTrigger><scope>source.python</scope><content>print(\"Hello, $1\")</content></snippet>".toList ∧
    serializeSnippet
      { path := "p".toList, name := "n".toList, description := "d".toList,
        tabTrigger := "t".toList, scope := "s".toList, linesep := lfOnly,
        content := "a<b&c>d".toList } =
      "<snippet><description>d</description><tabTrigger>t</tabTrigger><scope>s</scope><content>a&lt;b&amp;c&gt;d</content></snippet>".toList := by
  refine ⟨fun sn => rfl, by decide, by decide, by decide⟩

/-! ## Claim C6 -/

/-- C6: the content field of every successfully parsed record is the
verbatim text following the closing delimiter line through the end of the
document, with no trimming — the document decomposes exactly as
`--- nl1 header linesep --- nl2 content`. -/
theorem c6_content_verbatim :
    ∀ (p n text : List Char) (r : Snippet), parse_snippet p n text = .ok r →
      ∃ nl1 h nl2, regexNL nl1 ∧ regexNL r.linesep ∧ regexNL nl2 ∧
        text = dashes ++ (nl1 ++ (h ++ (r.linesep ++ (dashes ++ (nl2 ++ r.content))))) := by
  intro p n text r hok
  cases hm : matchTemplate text with
  | none =>
    rw [parse_snippet_malformed hm] at hok
    exact absurd hok (by simp)
  | some m =>
    rw [parse_snippet_some hm] at hok
    have hk := parseHeaderLines_keeps hok
    obtain ⟨hls, nl1, nl2, h1, h2, hdec⟩ := matchTemplate_some_decomp hm
    refine ⟨nl1, m.1, nl2, h1, ?_, h2, ?_⟩
    · rw [hk.2.2.1]
      exact hls
    · rw [hk.2.2.1, hk.2.2.2]
      exact hdec

/-- Witness for C6 at a document whose content itself contains a `---`
line: the content is carried verbatim, and the serializer emits it
unchanged inside the `content` element. -/
theorem c6_content_verbatim_witness :
    parse_snippet "p".toList "n".toList dashesContentDoc =
      .ok { path := "p".toList, name := "n".toList, description := "a".toList,
            tabTrigger := [], scope := [], linesep := lfOnly,
            content := "x\n---\ny".toList } ∧
    (∃ nl1 h nl2, regexNL nl1 ∧ regexNL lfOnly ∧ regexNL nl2 ∧
      dashesContentDoc = dashes ++ (nl1 ++ (h ++ (lfOnly ++ (dashes ++ (nl2 ++ "x\n---\ny".toList)))))) ∧
    serializeSnippet
      { path := "p".toList, name := "n".toList, description := "a".toList,
        tabTrigger := [], scope := [], linesep := lfOnly,
        content := "x\n---\ny".toList } =
      "<snippet><description>a</description><tabTrigger /><scope /><content>x\n---\ny</content></snippet>".toList :=
  ⟨by decide,
   c6_content_verbatim "p".toList "n".toList dashesContentDoc
     { path := "p".toList, name := "n".toList, description := "a".toList,
       tabTrigger := [], scope := [], linesep := lfOnly,
       content := "x\n---\ny".toList } (by decide),
   by decide⟩

/-! ## Claim C1 -/

/-- C1 counterexample: the zero-header-line document `---\n---\nc` matches
the §4.1 grammar (`header := (headerLine NEWLINE)*` with zero lines), yet
`parse_snippet` rejects it with the malformed-document error — the regex
demands a captured linesep newline before the closing delimiter in
addition to the newline after the opening one. -/
theorem c1_counterexample :
    specDocMatch zeroHeaderDoc ∧
    parse_snippet "p".toList "n".toList zeroHeaderDoc = .err .malformed := by
  constructor
  · exact ⟨lfOnly, lfOnly, [], "c".toList, Or.inl rfl, Or.inl rfl,
      by simp, by decide⟩
  · decide

/-- C1 (amended): every document of the §4.1 grammar with at least one
header line whose trimmed keys are all recognized parses successfully; a
document failing the `template` regex is rejected with the distinct
malformed-document error, and in particular the grammar-valid zero-header
LF document is so rejected rather than accepted. -/
theorem c1_grammar_parse :
    (∀ (path name nl0 nl1 c : List Char) (ps : List (List Char × List Char)),
      specNL nl0 → specNL nl1 → ps ≠ [] →
      (∀ p ∈ ps, specHeaderLine p.1 ∧ specNL p.2) →
      (∀ p ∈ ps, lineKeyOf p.1 = some descKey ∨ lineKeyOf p.1 = some tabKey ∨
        lineKeyOf p.1 = some scopeKey) →
      ∃ r, parse_snippet path name
        (dashes ++ (nl0 ++ (hbBlock ps ++ (dashes ++ (nl1 ++ c))))) = .ok r) ∧
    (∀ (path name text : List Char), matchTemplate text = none →
      parse_snippet path name text = .err .malformed) ∧
    parse_snippet "p".toList "n".toList zeroHeaderDoc = .err .malformed := by
  refine ⟨?_, fun path name text h => parse_snippet_malformed h, by decide⟩
  intro path name nl0 nl1 c ps h0 h1 hne hps hkeys
  have hfs := findSplit_hbBlock nl1 c hps hne h1
  have hmt := matchTemplate_build h0 hfs
  have hkeys2 : ∀ l ∈ ps.map (fun p => p.1),
      lineKeyOf l = some descKey ∨ lineKeyOf l = some tabKey ∨
      lineKeyOf l = some scopeKey := by
    intro l hl
    obtain ⟨p, hp, rfl⟩ := List.mem_map.mp hl
    exact hkeys p hp
  obtain ⟨z, hz⟩ := parseHeaderLines_ok_of_keys
    { path := path, name := name, description := name, tabTrigger := [],
      scope := [], linesep := hbLastNL ps, content := c } hkeys2
  refine ⟨z, ?_⟩
  rw [parse_snippet_some hmt]
  have hsp : pySplitlines (hbHeader ps) = ps.map (fun p => p.1) :=
    pySplitlines_header hps hne
  rw [show pySplitlines ((hbHeader ps, hbLastNL ps, c) :
    List Char × List Char × List Char).1 = ps.map (fun p => p.1) from hsp]
  exact hz

/-- Witness for C1 at a concrete one-line grammar document. -/
theorem c1_grammar_parse_witness :
    ∃ r, parse_snippet "p".toList "n".toList
      (dashes ++ (lfOnly ++ (hbBlock [("description: worl".toList, lfOnly)] ++
        (dashes ++ (lfOnly ++ "body".toList))))) = .ok r :=
  c1_grammar_parse.1 "p".toList "n".toList lfOnly lfOnly "body".toList
    [("description: worl".toList, lfOnly)]
    (Or.inl rfl) (Or.inl rfl) (by simp)
    (by
      intro p hp
      simp only [List.mem_singleton] at hp
      subst hp
      exact ⟨⟨by decide, by decide⟩, Or.inl rfl⟩)
    (by decide)


/-! ## Claim C8: `swap_extension` and `str.replace` -/

theorem replaceAllAux_nil (pat rep : List Char) (fuel : Nat) :
    replaceAllAux pat rep fuel [] = [] := by
  cases fuel <;> rfl

/-- `str.replace` on a string whose only occurrence of the pattern is the
trailing one replaces exactly that occurrence. -/
theorem replaceAllAux_trailing {pat rep : List Char} (hpat : pat ≠ [])
    (s1 : List Char) :
    ∀ fuel : Nat, (s1 ++ pat).length ≤ fuel → noOccWithin s1 pat = true →
      replaceAllAux pat rep fuel (s1 ++ pat) = s1 ++ rep := by
  induction s1 with
  | nil =>
    intro fuel hf hno
    cases fuel with
    | zero =>
      cases pat with
      | nil => exact absurd rfl hpat
      | cons p0 pt => simp at hf
    | succ f =>
      cases pat with
      | nil => exact absurd rfl hpat
      | cons p0 pt =>
        have key : replaceAllAux (p0 :: pt) rep (f + 1) ([] ++ (p0 :: pt)) =
            if (p0 :: pt) ≠ [] ∧ isPre (p0 :: pt) (p0 :: pt) = true then
              rep ++ replaceAllAux (p0 :: pt) rep f ((p0 :: pt).drop (p0 :: pt).length)
            else p0 :: replaceAllAux (p0 :: pt) rep f pt := rfl
        rw [key, if_pos ⟨by simp, by simpa using isPre_append (p0 :: pt) []⟩]
        rw [List.drop_length, replaceAllAux_nil]
        simp
  | cons a t ih =>
    intro fuel hf hno
    rw [noOccWithin] at hno
    simp only [Bool.and_eq_true, Bool.not_eq_true'] at hno
    obtain ⟨h1, h2⟩ := hno
    have hpre : isPre pat (a :: (t ++ pat)) = false := by
      simpa using h1
    cases fuel with
    | zero => simp at hf
    | succ f =>
      have key : replaceAllAux pat rep (f + 1) ((a :: t) ++ pat) =
          if pat ≠ [] ∧ isPre pat (a :: (t ++ pat)) = true then
            rep ++ replaceAllAux pat rep f ((a :: (t ++ pat)).drop pat.length)
          else a :: replaceAllAux pat rep f (t ++ pat) := rfl
      rw [key, if_neg (fun hc => by rw [hpre] at hc; exact absurd hc.2 (by simp))]
      have hlen : (t ++ pat).length ≤ f := by
        simp at hf ⊢
        omega
      rw [ih f hlen h2]
      rfl

theorem replaceAll_trailing {s1 pat rep : List Char} (hpat : pat ≠ [])
    (hno : noOccWithin s1 pat = true) :
    replaceAll (s1 ++ pat) pat rep = s1 ++ rep :=
  replaceAllAux_trailing hpat s1 _ le_rfl hno

/-- Swapping a cleanly generated-named path yields its source name. -/
theorem swap_gen_ext {stem : List Char}
    (h : noOccWithin stem EXT_SNIPPET_SANE = true) :
    swap_extension (stem ++ EXT_SNIPPET_SANE) = stem ++ EXT_SANESNIPPET := by
  unfold swap_extension
  rw [if_pos (isSuf_append stem EXT_SNIPPET_SANE)]
  exact replaceAll_trailing (by decide) h

/-- Swapping a cleanly source-named path yields its generated name. -/
theorem swap_src_ext {stem : List Char}
    (h : noOccWithin stem EXT_SANESNIPPET = true) :
    swap_extension (stem ++ EXT_SANESNIPPET) = stem ++ EXT_SNIPPET_SANE := by
  unfold swap_extension
  have hno : isSuf EXT_SNIPPET_SANE (stem ++ EXT_SANESNIPPET) = false := by
    cases hx : isSuf EXT_SNIPPET_SANE (stem ++ EXT_SANESNIPPET) with
    | false => rfl
    | true => exact absurd (ext_clash hx (isSuf_append _ _)) not_false
  rw [if_neg (by rw [hno]; simp)]
  exact replaceAll_trailing (by decide) h

/-- C8 counterexample: `str.replace` replaces every occurrence, so on a path
that contains an extension more than once `swap_extension` does not merely
change the trailing extension, and applying it twice does not return the
original path. -/
theorem c8_counterexample :
    swap_extension (swap_extension "x.sane.sublime-snippet.sane-snippet".toList) ≠
      "x.sane.sublime-snippet.sane-snippet".toList ∧
    swap_extension "d/e.sane-snippet/f.sane-snippet".toList ≠
      "d/e.sane-snippet/f".toList ++ EXT_SNIPPET_SANE := by
  decide

/-- C8 (amended): on every path whose stem contains no occurrence of either
extension, `swap_extension` changes exactly the trailing extension (same
directory and base name) in both directions, and applying it twice returns
the original path. -/
theorem c8_swap_extension :
    ∀ stem : List Char, noOccWithin stem EXT_SANESNIPPET = true →
      noOccWithin stem EXT_SNIPPET_SANE = true →
      swap_extension (stem ++ EXT_SANESNIPPET) = stem ++ EXT_SNIPPET_SANE ∧
      swap_extension (stem ++ EXT_SNIPPET_SANE) = stem ++ EXT_SANESNIPPET ∧
      swap_extension (swap_extension (stem ++ EXT_SANESNIPPET)) =
        stem ++ EXT_SANESNIPPET ∧
      swap_extension (swap_extension (stem ++ EXT_SNIPPET_SANE)) =
        stem ++ EXT_SNIPPET_SANE := by
  intro stem h1 h2
  have hs := swap_src_ext h1
  have hg := swap_gen_ext h2
  exact ⟨hs, hg, by rw [hs, hg], by rw [hg, hs]⟩

/-- Witness for C8 at a concrete clean path. -/
theorem c8_swap_extension_witness :
    noOccWithin "dir/x".toList EXT_SANESNIPPET = true ∧
    noOccWithin "dir/x".toList EXT_SNIPPET_SANE = true ∧
    swap_extension ("dir/x".toList ++ EXT_SANESNIPPET) =
      "dir/x".toList ++ EXT_SNIPPET_SANE :=
  ⟨by decide, by decide,
   (c8_swap_extension "dir/x".toList (by decide) (by decide)).1⟩

/-! ## Frame lemmas for the filesystem model -/

theorem fsLookup_map_update (p q c : List Char) (h : q ≠ p) :
    ∀ fs : FS, fsLookup (fs.map (fun e => if e.1 = p then (p, c) else e)) q = fsLookup fs q := by
  intro fs
  induction fs with
  | nil => rfl
  | cons e t ih =>
    by_cases he : e.1 = p
    · simp only [List.map_cons, if_pos he, fsLookup]
      rw [if_neg (show ¬ ((p, c).1 = q) from fun hh => h hh.symm),
          if_neg (show ¬ (e.1 = q) from fun hh => h (hh ▸ he))]
      exact ih
    · simp only [List.map_cons, if_neg he, fsLookup]
      by_cases hq : e.1 = q
      · rw [if_pos hq, if_pos hq]
      · rw [if_neg hq, if_neg hq]; exact ih

theorem fsLookup_map_self (p c : List Char) :
    ∀ fs : FS, fsExists fs p = true →
      fsLookup (fs.map (fun e => if e.1 = p then (p, c) else e)) p = some c := by
  intro fs
  induction fs with
  | nil => intro h; exact absurd h (by simp [fsExists, fsLookup])
  | cons e t ih =>
    intro h
    by_cases he : e.1 = p
    · simp only [List.map_cons, if_pos he]
      rw [fsLookup, if_pos rfl]
    · simp only [List.map_cons, if_neg he]
      rw [fsLookup, if_neg he]
      apply ih
      simp only [fsExists, fsLookup, if_neg he] at h
      exact h

theorem fsLookup_append_one (p c q : List Char) :
    ∀ fs : FS, fsLookup (fs ++ [(p, c)]) q =
      match fsLookup fs q with
      | some v => some v
      | none => if p = q then some c else none := by
  intro fs
  induction fs with
  | nil => rfl
  | cons e t ih =>
    by_cases hq : e.1 = q
    · simp only [List.cons_append, fsLookup, if_pos hq]
    · simp only [List.cons_append, fsLookup, if_neg hq]; exact ih

theorem fsLookup_write (fs : FS) (p c q : List Char) :
    fsLookup (fsWrite fs p c) q = if q = p then some c else fsLookup fs q := by
  unfold fsWrite
  by_cases hex : fsExists fs p = true
  · rw [if_pos hex]
    by_cases hqp : q = p
    · subst hqp; rw [if_pos rfl]; exact fsLookup_map_self q c fs hex
    · rw [if_neg hqp]; exact fsLookup_map_update p q c hqp fs
  · rw [if_neg hex, fsLookup_append_one]
    by_cases hqp : q = p
    · subst hqp
      have hnone : fsLookup fs q = none := by
        simp only [fsExists] at hex
        cases hl : fsLookup fs q with
        | none => rfl
        | some v => rw [hl] at hex; simp at hex
      rw [hnone, if_pos rfl]
    · rw [if_neg hqp]
      have hpq : ¬ (p = q) := fun hh => hqp hh.symm
      cases hl : fsLookup fs q with
      | none => simp [hpq]
      | some v => rfl

theorem fsLookup_remove (fs : FS) (p q : List Char) :
    fsLookup (fsRemove fs p) q = if q = p then none else fsLookup fs q := by
  induction fs with
  | nil => by_cases hqp : q = p <;> simp [fsRemove, fsLookup, hqp]
  | cons e t ih =>
    by_cases he : e.1 = p
    · have hstep : fsRemove (e :: t) p = fsRemove t p := by
        simp [fsRemove, List.filter_cons, he]
      rw [hstep, ih]
      by_cases hqp : q = p
      · rw [if_pos hqp, if_pos hqp]
      · rw [if_neg hqp, if_neg hqp]
        rw [show fsLookup (e :: t) q = fsLookup t q from by
          rw [fsLookup, if_neg (show ¬ (e.1 = q) from fun hh => hqp (hh ▸ he))]]
    · have hstep : fsRemove (e :: t) p = e :: fsRemove t p := by
        simp [fsRemove, List.filter_cons, he]
      rw [hstep]
      by_cases hq : e.1 = q
      · rw [fsLookup, if_pos hq]
        by_cases hqp : q = p
        · exact absurd (hqp ▸ hq) he
        · rw [if_neg hqp, fsLookup, if_pos hq]
      · rw [fsLookup, if_neg hq, ih]
        by_cases hqp : q = p
        · rw [if_pos hqp, if_pos hqp]
        · rw [if_neg hqp, if_neg hqp, fsLookup, if_neg hq]

theorem fsExists_write (fs : FS) (p c q : List Char) :
    fsExists (fsWrite fs p c) q = if q = p then true else fsExists fs q := by
  simp only [fsExists, fsLookup_write]
  by_cases hqp : q = p <;> simp [hqp]

theorem fsExists_remove (fs : FS) (p q : List Char) :
    fsExists (fsRemove fs p) q = if q = p then false else fsExists fs q := by
  simp only [fsExists, fsLookup_remove]
  by_cases hqp : q = p <;> simp [hqp]

theorem mem_fsPaths {fs : FS} {q : List Char} :
    q ∈ fsPaths fs ↔ fsExists fs q = true := by
  induction fs with
  | nil => simp [fsPaths, fsExists, fsLookup]
  | cons e t ih =>
    simp only [fsPaths, List.map_cons, List.mem_cons]
    by_cases hq : e.1 = q
    · simp [fsExists, fsLookup, hq]
    · simp only [fsExists, fsLookup, if_neg hq]
      constructor
      · intro h
        rcases h with h | h
        · exact absurd h.symm hq
        · exact ih.mp h
      · intro h
        exact Or.inr (ih.mpr h)

/-! ## Characterization of one `processFile` step -/

theorem processFile_gen_present {force : Bool} {fs : FS} {p : List Char}
    (hg : genNamed p = true) (he : fsExists fs (swap_extension p) = true) :
    processFile force fs p = (fs, []) := by
  unfold processFile
  rw [if_pos hg, if_pos he]

theorem processFile_gen_orphan {force : Bool} {fs : FS} {p : List Char}
    (hg : genNamed p = true) (he : fsExists fs (swap_extension p) = false) :
    processFile force fs p = (fsRemove fs p, [Event.deleted p]) := by
  unfold processFile
  rw [if_pos hg, if_neg (by simp [he])]

theorem processFile_other {force : Bool} {fs : FS} {p : List Char}
    (hg : genNamed p = false) (hs : srcNamed p = false) :
    processFile force fs p = (fs, []) := by
  unfold processFile
  rw [if_neg (by simp [hg]), if_neg (by simp [hs])]

theorem processFile_src_none {force : Bool} {fs : FS} {p : List Char}
    (hg : genNamed p = false) (hs : srcNamed p = true)
    (hr : regenerate_snippet fs p = none) :
    processFile force fs p = (fs, []) := by
  simp [processFile, hg, hs, hr]

theorem processFile_src_force {fs : FS} {p g : List Char}
    (hg : genNamed p = false) (hs : srcNamed p = true)
    (hr : regenerate_snippet fs p = some g) :
    processFile true fs p =
      (fsWrite fs (swap_extension p) g, [Event.wrote (swap_extension p)]) := by
  simp [processFile, hg, hs, hr]

theorem processFile_src_new {force : Bool} {fs : FS} {p g : List Char}
    (hg : genNamed p = false) (hs : srcNamed p = true)
    (hr : regenerate_snippet fs p = some g)
    (he : fsExists fs (swap_extension p) = false) :
    processFile force fs p =
      (fsWrite fs (swap_extension p) g, [Event.wrote (swap_extension p)]) := by
  simp [processFile, hg, hs, hr, he]

theorem processFile_src_uptodate {fs : FS} {p g : List Char}
    (hg : genNamed p = false) (hs : srcNamed p = true)
    (hr : regenerate_snippet fs p = some g)
    (hl : fsLookup fs (swap_extension p) = some g) :
    processFile false fs p = (fs, []) := by
  have he : fsExists fs (swap_extension p) = true := by simp [fsExists, hl]
  simp [processFile, hg, hs, hr, he, hl]

theorem processFile_src_differs {fs : FS} {p g r0 : List Char}
    (hg : genNamed p = false) (hs : srcNamed p = true)
    (hr : regenerate_snippet fs p = some g)
    (hl : fsLookup fs (swap_extension p) = some r0) (hne : r0 ≠ g) :
    processFile false fs p =
      (fsWrite fs (swap_extension p) g, [Event.wrote (swap_extension p)]) := by
  have he : fsExists fs (swap_extension p) = true := by simp [fsExists, hl]
  simp [processFile, hg, hs, hr, he, hl, hne]

theorem processFile_cases (force : Bool) (fs : FS) (p : List Char) :
    (processFile force fs p = (fs, [])) ∨
    (genNamed p = true ∧ fsExists fs (swap_extension p) = false ∧
      processFile force fs p = (fsRemove fs p, [Event.deleted p])) ∨
    (genNamed p = false ∧ srcNamed p = true ∧ ∃ g, regenerate_snippet fs p = some g ∧
      processFile force fs p =
        (fsWrite fs (swap_extension p) g, [Event.wrote (swap_extension p)])) := by
  cases hg : genNamed p with
  | true =>
    cases he : fsExists fs (swap_extension p) with
    | true => exact Or.inl (processFile_gen_present hg he)
    | false => exact Or.inr (Or.inl ⟨rfl, rfl, processFile_gen_orphan hg he⟩)
  | false =>
    cases hs : srcNamed p with
    | false => exact Or.inl (processFile_other hg hs)
    | true =>
      cases hr : regenerate_snippet fs p with
      | none => exact Or.inl (processFile_src_none hg hs hr)
      | some g =>
        cases hforce : force with
        | true =>
          exact Or.inr (Or.inr ⟨rfl, rfl, g, rfl, processFile_src_force hg hs hr⟩)
        | false =>
          cases he : fsExists fs (swap_extension p) with
          | false =>
            exact Or.inr (Or.inr ⟨rfl, rfl, g, rfl, processFile_src_new hg hs hr he⟩)
          | true =>
            have hl : ∃ r0, fsLookup fs (swap_extension p) = some r0 := by
              simp only [fsExists] at he
              cases hx : fsLookup fs (swap_extension p) with
              | none => rw [hx] at he; exact absurd he (by simp)
              | some v => exact ⟨v, rfl⟩
            obtain ⟨r0, hl⟩ := hl
            by_cases hrg : r0 = g
            · subst hrg
              exact Or.inl (processFile_src_uptodate hg hs hr hl)
            · exact Or.inr
                (Or.inr ⟨rfl, rfl, g, rfl, processFile_src_differs hg hs hr hl hrg⟩)

theorem processFile_deleted_mem {force : Bool} {fs : FS} {p x : List Char}
    (h : Event.deleted x ∈ (processFile force fs p).2) :
    x = p ∧ genNamed p = true ∧ fsExists fs (swap_extension p) = false := by
  rcases processFile_cases force fs p with hc | ⟨hg, he, hc⟩ | ⟨_, _, g, _, hc⟩
  · rw [hc] at h; exact absurd h (by simp)
  · rw [hc] at h
    simp only [List.mem_singleton, Event.deleted.injEq] at h
    subst h
    exact ⟨rfl, hg, he⟩
  · rw [hc] at h
    exact absurd h (by simp)

theorem processFile_exists_preserved {force : Bool} {fs : FS} {p q : List Char}
    (hne : q ≠ p) (hq : fsExists fs q = true) :
    fsExists (processFile force fs p).1 q = true := by
  rcases processFile_cases force fs p with hc | ⟨_, _, hc⟩ | ⟨_, _, g, _, hc⟩
  · rw [hc]; exact hq
  · rw [hc]
    show fsExists (fsRemove fs p) q = true
    rw [fsExists_remove, if_neg hne]
    exact hq
  · rw [hc]
    show fsExists (fsWrite fs (swap_extension p) g) q = true
    rw [fsExists_write]
    by_cases hqs : q = swap_extension p
    · rw [if_pos hqs]
    · rw [if_neg hqs]; exact hq

theorem processFile_src_stable {force : Bool} {fs : FS} {p : List Char}
    (hgood : srcNamed p = true → genNamed (swap_extension p) = true) :
    ∀ q, srcNamed q = true → fsLookup (processFile force fs p).1 q = fsLookup fs q := by
  intro q hsq
  rcases processFile_cases force fs p with hc | ⟨hg, _, hc⟩ | ⟨_, hs, g, _, hc⟩
  · rw [hc]
  · rw [hc]
    show fsLookup (fsRemove fs p) q = fsLookup fs q
    rw [fsLookup_remove, if_neg]
    intro hqp
    subst hqp
    exact srcNamed_genNamed_clash hsq hg
  · rw [hc]
    show fsLookup (fsWrite fs (swap_extension p) g) q = fsLookup fs q
    rw [fsLookup_write, if_neg]
    intro hqs
    subst hqs
    exact srcNamed_genNamed_clash hsq (hgood hs)

theorem regenerate_snippet_congr {fs2 fs : FS} (p : List Char)
    (h : fsLookup fs2 p = fsLookup fs p) :
    regenerate_snippet fs2 p = regenerate_snippet fs p := by
  unfold regenerate_snippet
  rw [h]

theorem regenerate_snippets_cons (force : Bool) (p : List Char)
    (rest : List (List Char)) (fs : FS) :
    regenerate_snippets force (p :: rest) fs =
      ((regenerate_snippets force rest (processFile force fs p).1).1,
       (processFile force fs p).2 ++
         (regenerate_snippets force rest (processFile force fs p).1).2) := rfl

/-! ## Pass-level lemmas for orphan cleanup -/

theorem pass_deleted_mem {force : Bool} {x : List Char} :
    ∀ (l : List (List Char)) (fs : FS),
      Event.deleted x ∈ (regenerate_snippets force l fs).2 → x ∈ l := by
  intro l
  induction l with
  | nil => intro fs h; exact absurd h (by simp [regenerate_snippets])
  | cons q rest ih =>
    intro fs h
    rw [regenerate_snippets_cons] at h
    rcases List.mem_append.mp h with h | h
    · obtain ⟨hx, _, _⟩ := processFile_deleted_mem h
      rw [hx]
      exact List.mem_cons_self q rest
    · exact List.mem_cons_of_mem q (ih _ h)

theorem pass_exists_preserved {force : Bool} {x : List Char} :
    ∀ (l : List (List Char)) (fs : FS), x ∉ l → fsExists fs x = true →
      fsExists (regenerate_snippets force l fs).1 x = true := by
  intro l
  induction l with
  | nil => intro fs _ h; exact h
  | cons q rest ih =>
    intro fs hnot h
    rw [regenerate_snippets_cons]
    exact ih _ (fun hm => hnot (List.mem_cons_of_mem q hm))
      (processFile_exists_preserved
        (fun he => hnot (by rw [he]; exact List.mem_cons_self q rest)) h)

theorem c7_aux (force : Bool) (p : List Char) (hg : genNamed p = true)
    (hsw : srcNamed (swap_extension p) = true) :
    ∀ (l : List (List Char)) (fs : FS),
      p ∈ l → l.Nodup →
      (∀ q ∈ l, srcNamed q = true → genNamed (swap_extension q) = true) →
      ((Event.deleted p ∈ (regenerate_snippets force l fs).2 ↔
          fsExists fs (swap_extension p) = false) ∧
       (fsExists fs (swap_extension p) = true → fsExists fs p = true →
          fsExists (regenerate_snippets force l fs).1 p = true)) := by
  intro l
  induction l with
  | nil => intro fs hp _ _; exact absurd hp (List.not_mem_nil p)
  | cons q0 rest ih =>
    intro fs hp hnd hall
    obtain ⟨hq0nr, hndr⟩ := List.nodup_cons.mp hnd
    by_cases hpq : p = q0
    · subst hpq
      cases hex : fsExists fs (swap_extension p) with
      | true =>
        have hstep : processFile force fs p = (fs, []) := processFile_gen_present hg hex
        have e1 : (processFile force fs p).1 = fs := by rw [hstep]
        have e2 : (processFile force fs p).2 = [] := by rw [hstep]
        rw [regenerate_snippets_cons, e1, e2, List.nil_append]
        constructor
        · constructor
          · intro hmem
            exact absurd (pass_deleted_mem rest fs hmem) hq0nr
          · intro h
            exact absurd h (by simp)
        · intro _ h2
          exact pass_exists_preserved rest fs hq0nr h2
      | false =>
        have hstep : processFile force fs p = (fsRemove fs p, [Event.deleted p]) :=
          processFile_gen_orphan hg hex
        have e2 : (processFile force fs p).2 = [Event.deleted p] := by rw [hstep]
        rw [regenerate_snippets_cons, e2]
        constructor
        · constructor
          · intro _; rfl
          · intro _
            exact List.mem_append_left _ (List.mem_singleton.mpr rfl)
        · intro h1
          exact absurd h1 (by simp)
    · have hprest : p ∈ rest := by
        rcases List.mem_cons.mp hp with h | h
        · exact absurd h hpq
        · exact h
      have hgood : srcNamed q0 = true → genNamed (swap_extension q0) = true :=
        hall q0 (List.mem_cons_self q0 rest)
      have hstab : fsLookup (processFile force fs q0).1 (swap_extension p) =
          fsLookup fs (swap_extension p) :=
        processFile_src_stable hgood (swap_extension p) hsw
      have hex2 : fsExists (processFile force fs q0).1 (swap_extension p) =
          fsExists fs (swap_extension p) := by
        simp only [fsExists, hstab]
      have ih2 := ih (processFile force fs q0).1 hprest hndr
        (fun q hq => hall q (List.mem_cons_of_mem q0 hq))
      rw [regenerate_snippets_cons]
      constructor
      · constructor
        · intro hmem
          rcases List.mem_append.mp hmem with h | h
          · obtain ⟨hxp, _, _⟩ := processFile_deleted_mem h
            exact absurd hxp hpq
          · rw [← hex2]
            exact ih2.1.mp h
        · intro h
          exact List.mem_append_right _ (ih2.1.mpr (by rw [hex2]; exact h))
      · intro h1 h2
        exact ih2.2 (by rw [hex2]; exact h1) (processFile_exists_preserved hpq h2)

/-- **C7 counterexample.** The generated file `orphanG` has its spec-paired
source on disk — `orphanS` is the same directory and base name with the
source extension, and it is present in the tree — yet a synchronization pass
deletes `orphanG`, because the code pairs files with `swap_extension`
(a replace-all), which maps `orphanG` to a different, absent path. -/
theorem c7_counterexample :
    genNamed orphanG = true ∧
    orphanS = (orphanG.take (orphanG.length - EXT_SNIPPET_SANE.length)) ++ EXT_SANESNIPPET ∧
    fsExists orphanFS orphanS = true ∧
    Event.deleted orphanG ∈ (regenerate_snippets false (fsPaths orphanFS) orphanFS).2 := by
  decide

/-- **C7** (amended: the "paired source file" is the `swap_extension` image
of the generated file, which coincides with the spec's same-directory,
same-base-name pairing only when the extension occurs nowhere else in the
path). For a walk listing the whole tree once, with every source path
swapping to a generated name: a generated file is deleted by the pass if and
only if its `swap_extension` source is absent, and if that source is present
the generated file is still on disk after the pass. -/
theorem c7_orphan_cleanup (fs : FS) (force : Bool) (p : List Char)
    (hmem : p ∈ fsPaths fs) (hnd : (fsPaths fs).Nodup)
    (hall : ∀ q ∈ fsPaths fs, srcNamed q = true → genNamed (swap_extension q) = true)
    (hg : genNamed p = true) (hsw : srcNamed (swap_extension p) = true) :
    (Event.deleted p ∈ (regenerate_snippets force (fsPaths fs) fs).2 ↔
      fsExists fs (swap_extension p) = false) ∧
    (fsExists fs (swap_extension p) = true →
      fsExists (regenerate_snippets force (fsPaths fs) fs).1 p = true) := by
  have h := c7_aux force p hg hsw (fsPaths fs) fs hmem hnd hall
  exact ⟨h.1, fun h1 => h.2 h1 (mem_fsPaths.mp hmem)⟩

/-- Witness: in the healthy pair `pairFS` the generated file is not deleted
and survives the pass. -/
theorem c7_orphan_cleanup_witness :
    ("d/x.sane.sublime-snippet".toList ∈ fsPaths pairFS ∧ (fsPaths pairFS).Nodup ∧
      genNamed "d/x.sane.sublime-snippet".toList = true ∧
      srcNamed (swap_extension "d/x.sane.sublime-snippet".toList) = true) ∧
    ((Event.deleted "d/x.sane.sublime-snippet".toList ∈
        (regenerate_snippets false (fsPaths pairFS) pairFS).2 ↔
      fsExists pairFS (swap_extension "d/x.sane.sublime-snippet".toList) = false) ∧
     (fsExists pairFS (swap_extension "d/x.sane.sublime-snippet".toList) = true →
      fsExists (regenerate_snippets false (fsPaths pairFS) pairFS).1
        "d/x.sane.sublime-snippet".toList = true)) :=
  ⟨⟨by decide, by decide, by decide, by decide⟩,
   c7_orphan_cleanup pairFS false "d/x.sane.sublime-snippet".toList (by decide) (by decide)
     (by decide) (by decide) (by decide)⟩

/-! ## One-pass invariants: a good tree is a fixed point, one run makes a
well-behaved tree good -/

theorem processFile_id_goodAt (force : Bool) (fs : FS) (p : List Char)
    (hc : (processFile force fs p).2 = []) : GoodAt fs p := by
  constructor
  · intro hg
    cases hex : fsExists fs (swap_extension p) with
    | true => rfl
    | false =>
      have hstep := @processFile_gen_orphan force fs p hg hex
      have he2 : (processFile force fs p).2 = [Event.deleted p] := by rw [hstep]
      rw [hc] at he2
      exact absurd he2 (by simp)
  · intro hs g hr
    have hg : genNamed p = false := by
      cases hgx : genNamed p with
      | false => rfl
      | true => exact (srcNamed_genNamed_clash hs hgx).elim
    cases hforce : force with
    | true =>
      rw [hforce] at hc
      have hstep := processFile_src_force hg hs hr
      have he2 : (processFile true fs p).2 = [Event.wrote (swap_extension p)] := by
        rw [hstep]
      rw [hc] at he2
      exact absurd he2 (by simp)
    | false =>
      rw [hforce] at hc
      cases hex : fsExists fs (swap_extension p) with
      | false =>
        have hstep := @processFile_src_new false fs p g hg hs hr hex
        have he2 : (processFile false fs p).2 = [Event.wrote (swap_extension p)] := by
          rw [hstep]
        rw [hc] at he2
        exact absurd he2 (by simp)
      | true =>
        obtain ⟨r0, hl⟩ : ∃ r0, fsLookup fs (swap_extension p) = some r0 := by
          simp only [fsExists] at hex
          cases hx : fsLookup fs (swap_extension p) with
          | none => rw [hx] at hex; exact absurd hex (by simp)
          | some v => exact ⟨v, rfl⟩
        by_cases hrg : r0 = g
        · rw [hl, hrg]
        · have hstep := processFile_src_differs hg hs hr hl hrg
          have he2 : (processFile false fs p).2 = [Event.wrote (swap_extension p)] := by
            rw [hstep]
          rw [hc] at he2
          exact absurd he2 (by simp)

theorem pass_stable {fs : FS} (hGood : ∀ q ∈ fsPaths fs, GoodAt fs q) :
    ∀ l : List (List Char), (∀ q ∈ l, q ∈ fsPaths fs) →
      regenerate_snippets false l fs = (fs, []) := by
  intro l
  induction l with
  | nil => intro _; rfl
  | cons q rest ih =>
    intro hsub
    have hqmem := hsub q (List.mem_cons_self q rest)
    obtain ⟨hgen, hsrc⟩ := hGood q hqmem
    have hstep : processFile false fs q = (fs, []) := by
      cases hg : genNamed q with
      | true => exact processFile_gen_present hg (hgen hg)
      | false =>
        cases hs : srcNamed q with
        | false => exact processFile_other hg hs
        | true =>
          cases hr : regenerate_snippet fs q with
          | none => exact processFile_src_none hg hs hr
          | some g => exact processFile_src_uptodate hg hs hr (hsrc hs g hr)
    have e1 : (processFile false fs q).1 = fs := by rw [hstep]
    have e2 : (processFile false fs q).2 = [] := by rw [hstep]
    rw [regenerate_snippets_cons, e1, e2, List.nil_append,
      ih (fun x hx => hsub x (List.mem_cons_of_mem q hx))]

theorem pass_good (force : Bool) :
    ∀ (todo : List (List Char)) (fs : FS),
      (∀ p, p ∈ fsPaths fs ∨ p ∈ todo → PathOK p) →
      (∀ p q, (p ∈ fsPaths fs ∨ p ∈ todo) → (q ∈ fsPaths fs ∨ q ∈ todo) →
        srcNamed p = true → srcNamed q = true →
        swap_extension p = swap_extension q → p = q) →
      todo.Nodup →
      (∀ q ∈ todo, q ∈ fsPaths fs) →
      (∀ q ∈ fsPaths fs, q ∉ todo → GoodAt fs q) →
      (∀ q, srcNamed q = true →
        fsLookup (regenerate_snippets force todo fs).1 q = fsLookup fs q) ∧
      (∀ q ∈ fsPaths (regenerate_snippets force todo fs).1,
        GoodAt (regenerate_snippets force todo fs).1 q) := by
  intro todo
  induction todo with
  | nil =>
    intro fs _ _ _ _ hdone
    exact ⟨fun q _ => rfl, fun q hq => hdone q hq (List.not_mem_nil q)⟩
  | cons p rest ih =>
    intro fs hpok hinj hnd hsub hdone
    obtain ⟨hpnr, hndr⟩ := List.nodup_cons.mp hnd
    obtain ⟨hpok1, hpok2⟩ := hpok p (Or.inr (List.mem_cons_self p rest))
    have hp_fs : p ∈ fsPaths fs := hsub p (List.mem_cons_self p rest)
    have K1 : ∀ q, srcNamed q = true →
        fsLookup (processFile force fs p).1 q = fsLookup fs q :=
      processFile_src_stable (fun hsx => (hpok1 hsx).1)
    have K2 : ∀ q, q ∈ fsPaths (processFile force fs p).1 →
        q ∈ fsPaths fs ∨ (srcNamed p = true ∧ q = swap_extension p) := by
      intro q hq
      rcases processFile_cases force fs p with hc | ⟨hg, hex, hc⟩ | ⟨hg, hs, g, hr, hc⟩
      · rw [hc] at hq
        exact Or.inl hq
      · rw [hc] at hq
        have hq' : fsExists (fsRemove fs p) q = true := mem_fsPaths.mp hq
        rw [fsExists_remove] at hq'
        by_cases hqp : q = p
        · rw [if_pos hqp] at hq'
          exact absurd hq' (by simp)
        · rw [if_neg hqp] at hq'
          exact Or.inl (mem_fsPaths.mpr hq')
      · rw [hc] at hq
        have hq' : fsExists (fsWrite fs (swap_extension p) g) q = true := mem_fsPaths.mp hq
        rw [fsExists_write] at hq'
        by_cases hqs : q = swap_extension p
        · exact Or.inr ⟨hs, hqs⟩
        · rw [if_neg hqs] at hq'
          exact Or.inl (mem_fsPaths.mpr hq')
    have K3 : ∀ q ∈ rest, q ∈ fsPaths (processFile force fs p).1 := by
      intro q hq
      have hqp : q ≠ p := fun he => hpnr (he ▸ hq)
      exact mem_fsPaths.mpr (processFile_exists_preserved hqp
        (mem_fsPaths.mp (hsub q (List.mem_cons_of_mem p hq))))
    have K4 : ∀ x, x ∈ fsPaths (processFile force fs p).1 ∨ x ∈ rest → PathOK x := by
      intro x hx
      rcases hx with hx | hx
      · rcases K2 x hx with h | ⟨hs, rfl⟩
        · exact hpok x (Or.inl h)
        · refine ⟨?_, ?_⟩
          · intro hsq
            exact (srcNamed_genNamed_clash hsq (hpok1 hs).1).elim
          · intro _
            rw [(hpok1 hs).2]
            exact hs
      · exact hpok x (Or.inr (List.mem_cons_of_mem p hx))
    have Klift : ∀ x, (x ∈ fsPaths (processFile force fs p).1 ∨ x ∈ rest) →
        srcNamed x = true → x ∈ fsPaths fs ∨ x ∈ p :: rest := by
      intro x hx hsx
      rcases hx with hx | hx
      · rcases K2 x hx with h | ⟨hs, rfl⟩
        · exact Or.inl h
        · exact (srcNamed_genNamed_clash hsx (hpok1 hs).1).elim
      · exact Or.inr (List.mem_cons_of_mem p hx)
    have K5 : ∀ a b, (a ∈ fsPaths (processFile force fs p).1 ∨ a ∈ rest) →
        (b ∈ fsPaths (processFile force fs p).1 ∨ b ∈ rest) →
        srcNamed a = true → srcNamed b = true →
        swap_extension a = swap_extension b → a = b := by
      intro a b ha hb hsa hsb hsw
      exact hinj a b (Klift a ha hsa) (Klift b hb hsb) hsa hsb hsw
    have K7 : ∀ q ∈ fsPaths (processFile force fs p).1, q ∉ rest →
        GoodAt (processFile force fs p).1 q := by
      intro q hq hqnr
      rcases processFile_cases force fs p with hc | ⟨hg, hex, hc⟩ | ⟨hg, hs, g, hr, hc⟩
      · rw [hc] at hq ⊢
        by_cases hqp : q = p
        · have he2 : (processFile force fs p).2 = [] := by rw [hc]
          have hgood := processFile_id_goodAt force fs p he2
          rw [hqp]
          exact hgood
        · exact hdone q hq (fun hm => (List.mem_cons.mp hm).elim hqp hqnr)
      · rw [hc] at hq ⊢
        have hq' : fsExists (fsRemove fs p) q = true := mem_fsPaths.mp hq
        rw [fsExists_remove] at hq'
        by_cases hqp : q = p
        · rw [if_pos hqp] at hq'
          exact absurd hq' (by simp)
        · rw [if_neg hqp] at hq'
          have hqfs : q ∈ fsPaths fs := mem_fsPaths.mpr hq'
          obtain ⟨hq1, hq2⟩ := hpok q (Or.inl hqfs)
          obtain ⟨hd1, hd2⟩ := hdone q hqfs (fun hm => (List.mem_cons.mp hm).elim hqp hqnr)
          constructor
          · intro hgq
            have hswq : swap_extension q ≠ p := by
              intro he
              have hsw := hq2 hgq
              rw [he] at hsw
              exact srcNamed_genNamed_clash hsw hg
            show fsExists (fsRemove fs p) (swap_extension q) = true
            rw [fsExists_remove, if_neg hswq]
            exact hd1 hgq
          · intro hsq g' hr'
            have hlq : fsLookup (fsRemove fs p) q = fsLookup fs q := by
              rw [fsLookup_remove, if_neg hqp]
            have hr'' : regenerate_snippet fs q = some g' :=
              (regenerate_snippet_congr q hlq).symm.trans hr'
            have hlkup : fsLookup fs (swap_extension q) = some g' := hd2 hsq g' hr''
            obtain ⟨hgsw, hb⟩ := hq1 hsq
            have hswq : swap_extension q ≠ p := by
              intro he
              have hqex : fsExists fs (swap_extension p) = true := by
                rw [← he, hb]
                exact mem_fsPaths.mp hqfs
              exact Bool.noConfusion (hqex.symm.trans hex)
            show fsLookup (fsRemove fs p) (swap_extension q) = some g'
            rw [fsLookup_remove, if_neg hswq]
            exact hlkup
      · rw [hc] at hq ⊢
        have hgensw : genNamed (swap_extension p) = true := (hpok1 hs).1
        have hswsw : swap_extension (swap_extension p) = p := (hpok1 hs).2
        have hpnsw : p ≠ swap_extension p := by
          intro he
          rw [← he] at hgensw
          exact srcNamed_genNamed_clash hs hgensw
        by_cases hqsp : q = swap_extension p
        · rw [hqsp]
          constructor
          · intro _
            show fsExists (fsWrite fs (swap_extension p) g)
              (swap_extension (swap_extension p)) = true
            rw [hswsw, fsExists_write, if_neg hpnsw]
            exact mem_fsPaths.mp hp_fs
          · intro hscon
            exact (srcNamed_genNamed_clash hscon hgensw).elim
        · by_cases hqp : q = p
          · rw [hqp]
            constructor
            · intro hgcon
              rw [hgcon] at hg
              exact Bool.noConfusion hg
            · intro _ g' hr'
              have hlp : fsLookup (fsWrite fs (swap_extension p) g) p = fsLookup fs p := by
                rw [fsLookup_write, if_neg hpnsw]
              have hr'' : regenerate_snippet fs p = some g' :=
                (regenerate_snippet_congr p hlp).symm.trans hr'
              have hg'g : g' = g := by
                rw [hr] at hr''
                exact (Option.some.inj hr'').symm
              show fsLookup (fsWrite fs (swap_extension p) g) (swap_extension p) = some g'
              rw [fsLookup_write, if_pos rfl, hg'g]
          · have hq' : fsExists (fsWrite fs (swap_extension p) g) q = true :=
              mem_fsPaths.mp hq
            rw [fsExists_write, if_neg hqsp] at hq'
            have hqfs : q ∈ fsPaths fs := mem_fsPaths.mpr hq'
            obtain ⟨hd1, hd2⟩ := hdone q hqfs (fun hm => (List.mem_cons.mp hm).elim hqp hqnr)
            constructor
            · intro hgq
              show fsExists (fsWrite fs (swap_extension p) g) (swap_extension q) = true
              rw [fsExists_write]
              by_cases hsw : swap_extension q = swap_extension p
              · rw [if_pos hsw]
              · rw [if_neg hsw]
                exact hd1 hgq
            · intro hsq g' hr'
              have hlq : fsLookup (fsWrite fs (swap_extension p) g) q = fsLookup fs q := by
                rw [fsLookup_write, if_neg hqsp]
              have hr'' : regenerate_snippet fs q = some g' :=
                (regenerate_snippet_congr q hlq).symm.trans hr'
              have hlkup := hd2 hsq g' hr''
              have hswne : swap_extension q ≠ swap_extension p := by
                intro hsw
                exact hqp (hinj q p (Or.inl hqfs) (Or.inr (List.mem_cons_self p rest))
                  hsq hs hsw)
              show fsLookup (fsWrite fs (swap_extension p) g) (swap_extension q) = some g'
              rw [fsLookup_write, if_neg hswne]
              exact hlkup
    have ihres := ih (processFile force fs p).1 K4 K5 hndr K3 K7
    refine ⟨fun q hsq => ?_, fun q hq => ?_⟩
    · exact (ihres.1 q hsq).trans (K1 q hsq)
    · exact ihres.2 q hq

theorem processFile_write_iff {force : Bool} {fs : FS} {p g : List Char}
    (hg : genNamed p = false) (hs : srcNamed p = true)
    (hr : regenerate_snippet fs p = some g) :
    ((processFile force fs p).2 = [] ∧
      ¬(force = true ∨ fsExists fs (swap_extension p) = false ∨
        fsLookup fs (swap_extension p) ≠ some g)) ∨
    ((processFile force fs p).2 = [Event.wrote (swap_extension p)] ∧
      (force = true ∨ fsExists fs (swap_extension p) = false ∨
        fsLookup fs (swap_extension p) ≠ some g)) := by
  cases hforce : force with
  | true =>
    have hc := processFile_src_force hg hs hr
    refine Or.inr ⟨by rw [hc], Or.inl rfl⟩
  | false =>
    cases hex : fsExists fs (swap_extension p) with
    | false =>
      have hc := @processFile_src_new false fs p g hg hs hr hex
      refine Or.inr ⟨by rw [hc], Or.inr (Or.inl rfl)⟩
    | true =>
      obtain ⟨r0, hl⟩ : ∃ r0, fsLookup fs (swap_extension p) = some r0 := by
        simp only [fsExists] at hex
        cases hx : fsLookup fs (swap_extension p) with
        | none => rw [hx] at hex; exact absurd hex (by simp)
        | some v => exact ⟨v, rfl⟩
      by_cases hrg : r0 = g
      · subst hrg
        have hc := processFile_src_uptodate hg hs hr hl
        refine Or.inl ⟨by rw [hc], ?_⟩
        rintro (h | h | h)
        · exact absurd h (by decide)
        · exact absurd h (by decide)
        · exact h hl
      · have hc := processFile_src_differs hg hs hr hl hrg
        refine Or.inr ⟨by rw [hc],
          Or.inr (Or.inr (fun hcon => hrg (Option.some.inj (hl.symm.trans hcon))))⟩

/-- **C4 counterexample.** `aliasFS1` is the tree left by one synchronization
pass over `aliasFS`, whose two distinct sources collide on the same generated
path under the replace-all `swap_extension`; a second pass over the unchanged
tree still performs filesystem mutations, refuting second-run quiescence. -/
theorem c4_counterexample :
    aliasFS1 = (regenerate_snippets false (fsPaths aliasFS) aliasFS).1 ∧
    (regenerate_snippets false (fsPaths aliasFS1) aliasFS1).2 ≠ [] :=
  ⟨rfl, by decide⟩

/-- **C4** (amended: the per-file write-iff and the force-rewrite example
hold as claimed for every source whose regeneration succeeds; the
second-run-quiet consequence holds under the well-behaved-tree proviso
`TreeOK` — without it `swap_extension` can alias distinct sources and the
claim fails, see the counterexample). First conjunct: a processed source
file produces a write exactly when `force` is set, or the generated file is
absent, or its content differs from the fresh serialization — and any write
is a single write to `swap_extension p`. Second conjunct: with `force` a
byte-identical generated file is rewritten anyway. Third conjunct: a second
full pass over the tree produced by one pass changes nothing and emits no
events. -/
theorem c4_sync_write :
    (∀ (force : Bool) (fs : FS) (p g : List Char),
      genNamed p = false → srcNamed p = true → regenerate_snippet fs p = some g →
      ((((processFile force fs p).2 ≠ []) ↔
          (force = true ∨ fsExists fs (swap_extension p) = false ∨
            fsLookup fs (swap_extension p) ≠ some g)) ∧
        ((processFile force fs p).2 ≠ [] →
          (processFile force fs p).2 = [Event.wrote (swap_extension p)]))) ∧
    (∀ (fs : FS) (p g : List Char),
      genNamed p = false → srcNamed p = true → regenerate_snippet fs p = some g →
      fsLookup fs (swap_extension p) = some g →
      (processFile true fs p).2 = [Event.wrote (swap_extension p)]) ∧
    (∀ (fs : FS) (force : Bool), TreeOK fs →
      regenerate_snippets false
        (fsPaths (regenerate_snippets force (fsPaths fs) fs).1)
        (regenerate_snippets force (fsPaths fs) fs).1 =
      ((regenerate_snippets force (fsPaths fs) fs).1, [])) := by
  refine ⟨?_, ?_, ?_⟩
  · intro force fs p g hg hs hr
    rcases @processFile_write_iff force fs p g hg hs hr with ⟨he, hnr⟩ | ⟨he, hrs⟩
    · constructor
      · rw [he]
        constructor
        · intro h
          exact absurd rfl h
        · intro h
          exact absurd h hnr
      · rw [he]
        intro h
        exact absurd rfl h
    · constructor
      · rw [he]
        constructor
        · intro _
          exact hrs
        · intro _
          simp
      · rw [he]
        intro _
        rfl
  · intro fs p g hg hs hr _
    have hc := processFile_src_force hg hs hr
    rw [hc]
  · intro fs force htree
    obtain ⟨hnd, hpok, hinj⟩ := htree
    have hrun := pass_good force (fsPaths fs) fs
      (fun x hx => hpok x (hx.elim id id))
      (fun a b ha hb => hinj a b (ha.elim id id) (hb.elim id id))
      hnd (fun q hq => hq) (fun q hq hnq => absurd hq hnq)
    exact pass_stable hrun.2 (fsPaths (regenerate_snippets force (fsPaths fs) fs).1)
      (fun q hq => hq)

/-- Witness: the one-source tree `simpleFS` satisfies `TreeOK`, and a second
pass after one pass over it is quiet. -/
theorem c4_sync_write_witness :
    TreeOK simpleFS ∧
    regenerate_snippets false
        (fsPaths (regenerate_snippets false (fsPaths simpleFS) simpleFS).1)
        (regenerate_snippets false (fsPaths simpleFS) simpleFS).1 =
      ((regenerate_snippets false (fsPaths simpleFS) simpleFS).1, []) := by
  have htree : TreeOK simpleFS := by
    refine ⟨by decide, ?_, ?_⟩
    · intro x hx
      have hx' : x = "d/x.sane-snippet".toList := by
        simpa [simpleFS, fsPaths] using hx
      subst hx'
      exact ⟨fun _ => ⟨by decide, by decide⟩, fun h => absurd h (by decide)⟩
    · intro a b ha hb _ _ _
      have ha' : a = "d/x.sane-snippet".toList := by
        simpa [simpleFS, fsPaths] using ha
      have hb' : b = "d/x.sane-snippet".toList := by
        simpa [simpleFS, fsPaths] using hb
      rw [ha', hb']
  exact ⟨htree, c4_sync_write.2.2 simpleFS false htree⟩

end SaneSnippets
